import Mathlib

/-!
Shallow embedding of `lstm_parser/evaluate.py` (segmentation-aware parser
evaluation).  Python lists become `List`, Python `dict`/attribute token
records become the `WordInfo` structure, the fallible pieces (list indexing
that can raise `IndexError`/`TypeError`, divisions that can raise
`ZeroDivisionError`) return `Option`, and Python float arithmetic is
modelled exactly over `ℚ`.  `none` throughout models "the Python code
raises an exception on this input".
-/

/-- A token record.  Predicted tokens are dicts with keys
`word/pos/head_idx/dep_label` and gold tokens are objects with the same
attributes; both carry the same four semantic fields, so one structure
models both.  `head_idx` is the (non-negative) 1-based head index, 0 being
ROOT. -/
structure WordInfo where
  word : String
  pos : String
  head_idx : Nat
  dep_label : String
deriving DecidableEq, Repr

/-- Python list subscription `xs[i]` with an integer index: non-negative
indices are looked up directly, negative indices wrap once from the right,
and anything else raises `IndexError` (modelled as `none`). -/
def pyGet {α : Type} (xs : List α) (i : Int) : Option α :=
  if 0 ≤ i then xs[i.toNat]?
  else if 0 ≤ i + xs.length then xs[(i + xs.length).toNat]? else none

/-- One cell of the start-offset-indexed span map: the dict
`{end: ..., word_idx: ...}` built by `generate_start_end_map`. -/
structure MapEntry where
  ending : Option Nat
  word_idx : Option Nat
deriving DecidableEq, Repr

/-- The loop body of `generate_start_end_map`: walk the words, tracking the
running offset `last_idx` and the enumeration index `word_idx`, writing
`{end, word_idx}` at each word's start offset.  Writing outside the
pre-allocated array is Python's `IndexError`, hence `none`. -/
def buildMapAux : List String → Nat → Nat → List MapEntry → Option (List MapEntry)
  | [], _, _, m => some m
  | w :: ws, word_idx, last_idx, m =>
    if last_idx < m.length then
      buildMapAux ws (word_idx + 1) (last_idx + w.length)
        (m.set last_idx ⟨some (last_idx + w.length), some word_idx⟩)
    else none

/-- `generate_start_end_map(data_list)`: allocate one blank cell per
character of the concatenated stream, then fill in each word's start. -/
def generate_start_end_map (data_list : List String) : Option (List MapEntry) :=
  buildMapAux data_list 0 0
    (List.replicate ((data_list.map String.length).sum) ⟨none, none⟩)

/-- The `for start_idx in range(len(predicted_index_map))` loop of
`map_predicted_with_gold_words`, recursing over the predicted span map with
the current offset `start_idx`.  Python's short-circuit `and` means the
gold map is only subscripted when the predicted cell is a word start; that
subscription can raise `IndexError` (gold stream shorter), and `None + 1`
on a half-filled cell would raise `TypeError` — both are `none`. -/
def alignAux (gold_index_map : List MapEntry) :
    List MapEntry → Nat → List (Option Nat) → Nat → Option (List (Option Nat) × Nat)
  | [], _, two_set_map, correct_count => some (two_set_map, correct_count)
  | pe :: rest, start_idx, two_set_map, correct_count =>
    match pe.ending with
    | none => alignAux gold_index_map rest (start_idx + 1) two_set_map correct_count
    | some end_idx =>
      match gold_index_map[start_idx]? with
      | none => none
      | some ge =>
        if ge.ending = some end_idx then
          match pe.word_idx with
          | none => none
          | some pwi =>
            match ge.word_idx with
            | none => none
            | some gwi =>
              if pwi + 1 < two_set_map.length then
                alignAux gold_index_map rest (start_idx + 1)
                  (two_set_map.set (pwi + 1) (some (gwi + 1))) (correct_count + 1)
              else none
        else alignAux gold_index_map rest (start_idx + 1) two_set_map correct_count

/-- `map_predicted_with_gold_words(predicted_list, gold_list)`: build both
span maps, then scan the predicted map, pairing words whose exact
character span occurs in both.  `two_set_map` starts as
`[None] * (len(predicted_list) + 1)` with index 0 (ROOT) set to 0. -/
def map_predicted_with_gold_words (predicted_list gold_list : List WordInfo) :
    Option (List (Option Nat) × Nat) :=
  match generate_start_end_map (predicted_list.map (·.word)) with
  | none => none
  | some predicted_index_map =>
    match generate_start_end_map (gold_list.map (·.word)) with
    | none => none
    | some gold_index_map =>
      alignAux gold_index_map predicted_index_map 0
        ((List.replicate (predicted_list.length + 1) (none : Option Nat)).set 0 (some 0)) 0

/-- The `for word_idx, word_info in enumerate(predicted_list)` loop of
`get_pos_match`: look the 1-based predicted index up in the alignment map
and, when aligned, compare POS tags with the gold token
`gold_list[word_gold_index - 1]`. -/
def posMatchAux (gold_list : List WordInfo) (predict_gold_map : List (Option Nat)) :
    List WordInfo → Nat → Nat → Option Nat
  | [], _, correct_count => some correct_count
  | wi :: rest, word_idx, correct_count =>
    match pyGet predict_gold_map ((word_idx : Int) + 1) with
    | none => none
    | some none => posMatchAux gold_list predict_gold_map rest (word_idx + 1) correct_count
    | some (some wgi) =>
      match pyGet gold_list ((wgi : Int) - 1) with
      | none => none
      | some gw =>
        if wi.pos = gw.pos then
          posMatchAux gold_list predict_gold_map rest (word_idx + 1) (correct_count + 1)
        else posMatchAux gold_list predict_gold_map rest (word_idx + 1) correct_count

/-- `get_pos_match(predicted_list, gold_list, predict_gold_map)`. -/
def get_pos_match (predicted_list gold_list : List WordInfo)
    (predict_gold_map : List (Option Nat)) : Option Nat :=
  posMatchAux gold_list predict_gold_map predicted_list 0 0

/-- The loop of `get_uas_las_match`: for each aligned predicted token,
translate its head through the alignment map
(`predict_gold_map[predicted_head_node]`, which can raise `IndexError` for
an out-of-range head) and compare with the gold head; on an unlabeled hit,
additionally compare dependency labels.  In Python a `None` map value
compares unequal to any integer, which `mh = some gw.head_idx` mirrors. -/
def uasLasAux (gold_list : List WordInfo) (predict_gold_map : List (Option Nat)) :
    List WordInfo → Nat → Nat → Nat → Option (Nat × Nat)
  | [], _, uas_count, las_count => some (uas_count, las_count)
  | wi :: rest, word_idx, uas_count, las_count =>
    match pyGet predict_gold_map ((word_idx : Int) + 1) with
    | none => none
    | some none => uasLasAux gold_list predict_gold_map rest (word_idx + 1) uas_count las_count
    | some (some wgi) =>
      match pyGet gold_list ((wgi : Int) - 1) with
      | none => none
      | some gw =>
        match pyGet predict_gold_map (wi.head_idx : Int) with
        | none => none
        | some mh =>
          if mh = some gw.head_idx then
            if wi.dep_label = gw.dep_label then
              uasLasAux gold_list predict_gold_map rest (word_idx + 1)
                (uas_count + 1) (las_count + 1)
            else uasLasAux gold_list predict_gold_map rest (word_idx + 1)
                (uas_count + 1) las_count
          else uasLasAux gold_list predict_gold_map rest (word_idx + 1) uas_count las_count

/-- `get_uas_las_match(predicted_list, gold_list, predict_gold_map)`,
returning the pair of raw UAS and LAS match counts. -/
def get_uas_las_match (predicted_list gold_list : List WordInfo)
    (predict_gold_map : List (Option Nat)) : Option (Nat × Nat) :=
  uasLasAux gold_list predict_gold_map predicted_list 0 0 0

/-- `get_f1_score(precision, recall)`: harmonic mean, or 0 when the sum is
not positive (the code's explicit guard).  `recall` is a reserved token in
this Lean environment, so the second parameter is named `rc`. -/
def get_f1_score (precision rc : ℚ) : ℚ :=
  if precision + rc > 0 then (2 * (precision * rc)) / (precision + rc) else 0

/-- The per-sentence evaluation dict built by `get_parser_evaluation`. -/
structure Evaluation where
  predicted_list_len : Nat
  gold_list_len : Nat
  correct_count : Nat
  precision : ℚ
  recall_ : ℚ
  f1_score : ℚ
  pos_match : Nat
  pos_acc : ℚ
  uas_match : Nat
  uas_score : ℚ
  uas_precision : ℚ
  uas_recall : ℚ
  uas_f1_score : ℚ
  las_match : Nat
  las_score : ℚ
  las_precision : ℚ
  las_recall : ℚ
  las_f1_score : ℚ
deriving DecidableEq, Repr

/-- The dict literal of `get_parser_evaluation`, as a pure function of the
two lengths and the four counts.  Each field is the source's expression;
the `correct_count > 0` guards are the code's own ternaries. -/
def mkEvaluation (np ng correct_count pos_correct_count uas_count las_count : Nat) :
    Evaluation :=
  { predicted_list_len := np
    gold_list_len := ng
    correct_count := correct_count
    precision := ((correct_count : ℚ) / (np : ℚ)) * 100
    recall_ := ((correct_count : ℚ) / (ng : ℚ)) * 100
    f1_score := get_f1_score (((correct_count : ℚ) / (np : ℚ)) * 100)
      (((correct_count : ℚ) / (ng : ℚ)) * 100)
    pos_match := pos_correct_count
    pos_acc := if correct_count > 0 then ((pos_correct_count : ℚ) / (correct_count : ℚ)) * 100 else 0
    uas_match := uas_count
    uas_score := if correct_count > 0 then ((uas_count : ℚ) / (correct_count : ℚ)) * 100 else 0
    uas_precision := ((uas_count : ℚ) / (np : ℚ)) * 100
    uas_recall := ((uas_count : ℚ) / (ng : ℚ)) * 100
    uas_f1_score := get_f1_score (((uas_count : ℚ) / (np : ℚ)) * 100)
      (((uas_count : ℚ) / (ng : ℚ)) * 100)
    las_match := las_count
    las_score := if correct_count > 0 then ((las_count : ℚ) / (correct_count : ℚ)) * 100 else 0
    las_precision := ((las_count : ℚ) / (np : ℚ)) * 100
    las_recall := ((las_count : ℚ) / (ng : ℚ)) * 100
    las_f1_score := get_f1_score (((las_count : ℚ) / (np : ℚ)) * 100)
      (((las_count : ℚ) / (ng : ℚ)) * 100) }

/-- `get_parser_evaluation(predicted_list, gold_list)`: run the three
scorers, then build the dict.  `correct_count / len(...)` over an empty
predicted or gold list raises `ZeroDivisionError` in Python (there is no
guard on those two divisions), hence `none`; the `pos_acc`, `uas_score`
and `las_score` divisions by `correct_count` ARE guarded in the source. -/
def get_parser_evaluation (predicted_list gold_list : List WordInfo) : Option Evaluation :=
  match map_predicted_with_gold_words predicted_list gold_list with
  | none => none
  | some (predict_gold_map, correct_count) =>
    match get_pos_match predicted_list gold_list predict_gold_map with
    | none => none
    | some pos_correct_count =>
      match get_uas_las_match predicted_list gold_list predict_gold_map with
      | none => none
      | some (uas_count, las_count) =>
        if predicted_list.length = 0 ∨ gold_list.length = 0 then none
        else some (mkEvaluation predicted_list.length gold_list.length
          correct_count pos_correct_count uas_count las_count)

/-- The epoch-level dict built by `get_epoch_evaluation`. -/
structure EpochEval where
  word_precision : ℚ
  word_recall : ℚ
  word_f1_score : ℚ
  pos_accuracy : ℚ
  uas_accuracy : ℚ
  las_accuracy : ℚ
  uas_f1_score : ℚ
  las_f1_score : ℚ
  correct_words : Nat
  all_gold_words : Nat
  all_predicted_words : Nat
  correct_pos : Nat
  correct_uas : Nat
  correct_las : Nat
deriving DecidableEq, Repr

/-- `get_epoch_evaluation(evaluation_list)`: divide each rate's sum by
`n_eval = len(evaluation_list)` (a `ZeroDivisionError`, hence `none`, on an
empty list) and sum the raw counts. -/
def get_epoch_evaluation (evaluation_list : List Evaluation) : Option EpochEval :=
  if evaluation_list.length = 0 then none
  else some
    { word_precision := (evaluation_list.map (·.precision)).sum / (evaluation_list.length : ℚ)
      word_recall := (evaluation_list.map (·.recall_)).sum / (evaluation_list.length : ℚ)
      word_f1_score := (evaluation_list.map (·.f1_score)).sum / (evaluation_list.length : ℚ)
      pos_accuracy := (evaluation_list.map (·.pos_acc)).sum / (evaluation_list.length : ℚ)
      uas_accuracy := (evaluation_list.map (·.uas_score)).sum / (evaluation_list.length : ℚ)
      las_accuracy := (evaluation_list.map (·.las_score)).sum / (evaluation_list.length : ℚ)
      uas_f1_score := (evaluation_list.map (·.uas_f1_score)).sum / (evaluation_list.length : ℚ)
      las_f1_score := (evaluation_list.map (·.las_f1_score)).sum / (evaluation_list.length : ℚ)
      correct_words := (evaluation_list.map (·.correct_count)).sum
      all_gold_words := (evaluation_list.map (·.gold_list_len)).sum
      all_predicted_words := (evaluation_list.map (·.predicted_list_len)).sum
      correct_pos := (evaluation_list.map (·.pos_match)).sum
      correct_uas := (evaluation_list.map (·.uas_match)).sum
      correct_las := (evaluation_list.map (·.las_match)).sum }

/-- Total character length of a sequence of token texts (the length of the
concatenated character stream). -/
def streamLen (ws : List String) : Nat := (ws.map String.length).sum

/-- Character offset at which the `k`-th (0-based) token of `ws` starts. -/
def startOffset (ws : List String) (k : Nat) : Nat := streamLen (ws.take k)

/-- Functional reading of the span map built by `generate_start_end_map`:
scanning words `ws` whose first word has index `j` and starts at offset
`off`, return `(end_offset, word_index)` of the word starting exactly at
offset `i`, if any. -/
def lookupSpan : List String → Nat → Nat → Nat → Option (Nat × Nat)
  | [], _, _, _ => none
  | w :: ws, j, off, i =>
    if i = off then some (off + w.length, j)
    else lookupSpan ws (j + 1) (off + w.length) i

/-- The span map of a sequence of non-empty words, written out directly:
one head cell per word followed by blank cells for the word's remaining
characters. -/
def segPattern : List String → Nat → Nat → List MapEntry
  | [], _, _ => []
  | w :: ws, j, off =>
    ⟨some (off + w.length), some j⟩ ::
      (List.replicate (w.length - 1) ⟨none, none⟩ ++ segPattern ws (j + 1) (off + w.length))

/-- The alignment map `[0, 1, ..., j, None, ..., None]` (length `n + 1`)
that the alignment loop has built after matching words `0..j-1` of a pair
of span-identical sequences of `n` words. -/
def idMapUpTo (j n : Nat) : List (Option Nat) :=
  ((List.range (j + 1)).map some) ++ List.replicate (n - j) (none : Option Nat)

/-- Spec reading of the unlabeled-attachment criterion (§4.3 of the spec):
predicted index `p` (0-based here; `p+1` in 1-based map space) is aligned
to gold index `g`, and the predicted head, translated through the
alignment map, is defined and equals the gold token's head index. -/
def spec_unlabeled_correct (predicted gold : List WordInfo) (pgm : List (Option Nat))
    (p : Nat) : Bool :=
  match pgm[p + 1]?, predicted[p]? with
  | some (some g), some wi =>
    match gold[g - 1]?, pgm[wi.head_idx]? with
    | some gw, some mh => decide (mh = some gw.head_idx)
    | _, _ => false
  | _, _ => false

/-- Spec reading of the labeled-attachment criterion: unlabeled-correct
and, additionally, equal dependency labels. -/
def spec_labeled_correct (predicted gold : List WordInfo) (pgm : List (Option Nat))
    (p : Nat) : Bool :=
  match pgm[p + 1]?, predicted[p]? with
  | some (some g), some wi =>
    match gold[g - 1]?, pgm[wi.head_idx]? with
    | some gw, some mh =>
      decide (mh = some gw.head_idx) && decide (wi.dep_label = gw.dep_label)
    | _, _ => false
  | _, _ => false

/-- Number of positions at which the two sequences carry the same head
index (plain positional attachment accuracy numerator). -/
def rawUasCount (predicted gold : List WordInfo) : Nat :=
  (predicted.zip gold).countP (fun c => decide (c.1.head_idx = c.2.head_idx))

/-- Number of positions at which the two sequences carry the same head
index and the same dependency label. -/
def rawLasCount (predicted gold : List WordInfo) : Nat :=
  (predicted.zip gold).countP
    (fun c => decide (c.1.head_idx = c.2.head_idx) && decide (c.1.dep_label = c.2.dep_label))

/-- All `word_idx` values stored in a span map are below `j`. -/
def entryValsBelow (m : List MapEntry) (j : Nat) : Prop :=
  ∀ (s : Nat) (e : MapEntry) (g : Nat), m[s]? = some e → e.word_idx = some g → g < j

/-- No two cells of a span map carry the same `word_idx` value. -/
def spanMapInj (m : List MapEntry) : Prop :=
  ∀ (s1 s2 : Nat) (e1 e2 : MapEntry) (g : Nat), m[s1]? = some e1 → m[s2]? = some e2 →
    e1.word_idx = some g → e2.word_idx = some g → s1 = s2

/-- Every cell of a span map is either blank or carries both an end offset
and a word index below `bound`. -/
def entryWF (m : List MapEntry) (bound : Nat) : Prop :=
  ∀ (s : Nat) (e : MapEntry), m[s]? = some e →
    e = ⟨none, none⟩ ∨ ∃ (en j : Nat), e = ⟨some en, some j⟩ ∧ j < bound

/-- Invariant of the alignment loop: cell 0 maps ROOT to ROOT, and every
defined cell at index `i ≥ 1` holds a 1-based gold index `v` recorded from
some already-scanned offset `s < bound` whose gold span-map cell names
gold word `v - 1`. -/
def alignInv (gmap : List MapEntry) (bound : Nat) (tsm : List (Option Nat)) : Prop :=
  tsm[0]? = some (some 0) ∧
  ∀ (i v : Nat), tsm[i]? = some (some v) → 1 ≤ i →
    1 ≤ v ∧ ∃ s, s < bound ∧ ∃ e, gmap[s]? = some e ∧ e.word_idx = some (v - 1)

/-- Defined cells of an alignment map are injective: no two indices map to
the same gold index. -/
def alignInj (tsm : List (Option Nat)) : Prop :=
  ∀ (i j v : Nat), tsm[i]? = some (some v) → tsm[j]? = some (some v) → i = j

/-- All twelve rate fields of a sentence evaluation record lie in
`[0, 100]`, the correct-segmentation count is bounded by both sequence
lengths, the POS and UAS match counts are bounded by the
correct-segmentation count, and the LAS count by the UAS count. -/
def ratesBounded (p g : List WordInfo) (ev : Evaluation) : Prop :=
  (0 ≤ ev.precision ∧ ev.precision ≤ 100) ∧
  (0 ≤ ev.recall_ ∧ ev.recall_ ≤ 100) ∧
  (0 ≤ ev.f1_score ∧ ev.f1_score ≤ 100) ∧
  (0 ≤ ev.pos_acc ∧ ev.pos_acc ≤ 100) ∧
  (0 ≤ ev.uas_score ∧ ev.uas_score ≤ 100) ∧
  (0 ≤ ev.uas_precision ∧ ev.uas_precision ≤ 100) ∧
  (0 ≤ ev.uas_recall ∧ ev.uas_recall ≤ 100) ∧
  (0 ≤ ev.uas_f1_score ∧ ev.uas_f1_score ≤ 100) ∧
  (0 ≤ ev.las_score ∧ ev.las_score ≤ 100) ∧
  (0 ≤ ev.las_precision ∧ ev.las_precision ≤ 100) ∧
  (0 ≤ ev.las_recall ∧ ev.las_recall ≤ 100) ∧
  (0 ≤ ev.las_f1_score ∧ ev.las_f1_score ≤ 100) ∧
  ev.correct_count ≤ p.length ∧ ev.correct_count ≤ g.length ∧
  ev.pos_match ≤ ev.correct_count ∧ ev.uas_match ≤ ev.correct_count ∧
  ev.las_match ≤ ev.uas_match

/-! ### Basic lookup and counting lemmas -/

theorem pyGet_natCast {α : Type} (xs : List α) (n : Nat) : pyGet xs (n : Int) = xs[n]? := by
  simp [pyGet]

theorem pyGet_natCast_add_one {α : Type} (xs : List α) (n : Nat) :
    pyGet xs ((n : Int) + 1) = xs[n + 1]? := by
  have h : ((n : Int) + 1) = ((n + 1 : Nat) : Int) := by push_cast; ring
  rw [h, pyGet_natCast]

theorem pyGet_natCast_sub_one {α : Type} (xs : List α) (g : Nat) (hg : 1 ≤ g) :
    pyGet xs ((g : Int) - 1) = xs[g - 1]? := by
  have h : ((g : Int) - 1) = ((g - 1 : Nat) : Int) := by omega
  rw [h, pyGet_natCast]

theorem countP_set_le {α : Type} (p : α → Bool) (l : List α) (i : Nat) (a : α) :
    (l.set i a).countP p ≤ l.countP p + 1 := by
  induction l generalizing i with
  | nil => simp
  | cons x xs ih =>
    cases i with
    | zero =>
      simp only [List.set_cons_zero, List.countP_cons]
      cases hpa : p a <;> cases hpx : p x <;> simp <;> omega
    | succ k =>
      simp only [List.set_cons_succ, List.countP_cons]
      have := ih k
      omega

theorem countP_drop_succ_le {α : Type} (p : α → Bool) (l : List α) (n : Nat) :
    (l.drop (n + 1)).countP p ≤ (l.drop n).countP p := by
  by_cases h : n < l.length
  · rw [List.drop_eq_getElem_cons h, List.countP_cons]
    omega
  · rw [List.drop_eq_nil_of_le (by omega), List.drop_eq_nil_of_le (by omega)]

theorem countP_drop_of_getElem {α : Type} (p : α → Bool) (l : List α) (n : Nat) (a : α)
    (h : l[n]? = some a) (hp : p a = true) :
    (l.drop (n + 1)).countP p + 1 ≤ (l.drop n).countP p := by
  obtain ⟨hlt, he⟩ := List.getElem?_eq_some.mp h
  rw [List.drop_eq_getElem_cons hlt, List.countP_cons, he, hp]
  simp

theorem set_succ_drop_one {α : Type} (l : List α) (i : Nat) (a : α) :
    (l.set (i + 1) a).drop 1 = (l.drop 1).set i a := by
  cases l <;> simp

theorem init_two_set_map (n : Nat) :
    (List.replicate (n + 1) (none : Option Nat)).set 0 (some 0) =
      some 0 :: List.replicate n (none : Option Nat) := by
  simp [List.replicate_succ]

/-! ### Structure of `generate_start_end_map` -/

theorem buildMapAux_length (ws : List String) :
    ∀ j off m M, buildMapAux ws j off m = some M → M.length = m.length := by
  induction ws with
  | nil =>
    intro j off m M h
    simp only [buildMapAux] at h
    cases h
    rfl
  | cons w ws ih =>
    intro j off m M h
    simp only [buildMapAux] at h
    split at h
    · simpa [List.length_set] using ih _ _ _ _ h
    · cases h

theorem buildMapAux_countP (p : MapEntry → Bool) (ws : List String) :
    ∀ j off m M, buildMapAux ws j off m = some M →
      M.countP p ≤ m.countP p + ws.length := by
  induction ws with
  | nil =>
    intro j off m M h
    simp only [buildMapAux] at h
    cases h
    simp
  | cons w ws ih =>
    intro j off m M h
    simp only [buildMapAux] at h
    split at h
    · have h1 := ih _ _ _ _ h
      have h2 := countP_set_le p m off ⟨some (off + w.length), some j⟩
      simp only [List.length_cons]
      omega
    · cases h

theorem generate_countP (p : MapEntry → Bool) (ws : List String) (M : List MapEntry)
    (h : generate_start_end_map ws = some M) (hblank : p ⟨none, none⟩ = false) :
    M.countP p ≤ ws.length := by
  have := buildMapAux_countP p ws 0 0 _ M h
  rwa [List.countP_replicate, hblank, if_neg (by simp), Nat.zero_add] at this

theorem buildMapAux_inj (ws : List String) :
    ∀ j off m M, entryValsBelow m j → spanMapInj m →
      buildMapAux ws j off m = some M →
      entryValsBelow M (j + ws.length) ∧ spanMapInj M := by
  induction ws with
  | nil =>
    intro j off m M hb hi h
    simp only [buildMapAux] at h
    cases h
    exact ⟨by simpa using hb, hi⟩
  | cons w ws ih =>
    intro j off m M hb hi h
    simp only [buildMapAux] at h
    split at h
    case isTrue hlt =>
      have hb2 : entryValsBelow (m.set off ⟨some (off + w.length), some j⟩) (j + 1) := by
        intro s e g hs hg
        rw [List.getElem?_set] at hs
        by_cases hso : off = s
        · rw [if_pos hso, if_pos hlt] at hs
          cases hs
          simp only [MapEntry.mk.injEq] at hg
          have : g = j := by
            injection hg with h1
            omega
          omega
        · rw [if_neg hso] at hs
          have := hb s e g hs hg
          omega
      have hi2 : spanMapInj (m.set off ⟨some (off + w.length), some j⟩) := by
        intro s1 s2 e1 e2 g h1 h2 hg1 hg2
        rw [List.getElem?_set] at h1 h2
        by_cases hs1 : off = s1
        · by_cases hs2 : off = s2
          · omega
          · rw [if_pos hs1, if_pos hlt] at h1
            rw [if_neg hs2] at h2
            cases h1
            have hgj : g = j := by
              injection hg1 with h1
              omega
            have := hb s2 e2 g h2 hg2
            omega
        · by_cases hs2 : off = s2
          · rw [if_neg hs1] at h1
            rw [if_pos hs2, if_pos hlt] at h2
            cases h2
            have hgj : g = j := by
              injection hg2 with h2
              omega
            have := hb s1 e1 g h1 hg1
            omega
          · rw [if_neg hs1] at h1
            rw [if_neg hs2] at h2
            exact hi s1 s2 e1 e2 g h1 h2 hg1 hg2
      have hconc := ih _ _ _ _ hb2 hi2 h
      refine ⟨?_, hconc.2⟩
      have := hconc.1
      simp only [List.length_cons]
      have harith : j + 1 + ws.length = j + (ws.length + 1) := by omega
      rwa [harith] at this
    case isFalse => cases h

theorem generate_inj (ws : List String) (M : List MapEntry)
    (h : generate_start_end_map ws = some M) : spanMapInj M := by
  have hb : entryValsBelow
      (List.replicate ((ws.map String.length).sum) (⟨none, none⟩ : MapEntry)) 0 := by
    intro s e g hs hg
    rw [List.getElem?_replicate] at hs
    split at hs
    · cases hs
      cases hg
    · cases hs
  have hi : spanMapInj
      (List.replicate ((ws.map String.length).sum) (⟨none, none⟩ : MapEntry)) := by
    intro s1 s2 e1 e2 g h1 h2 hg1 hg2
    rw [List.getElem?_replicate] at h1
    split at h1
    · cases h1
      cases hg1
    · cases h1
  exact (buildMapAux_inj ws 0 0 _ M hb hi h).2

/-! ### Invariants of the alignment loop -/

theorem alignInv_mono (gmap : List MapEntry) (b1 b2 : Nat) (hb : b1 ≤ b2)
    (tsm : List (Option Nat)) (h : alignInv gmap b1 tsm) : alignInv gmap b2 tsm := by
  obtain ⟨h0, h1⟩ := h
  refine ⟨h0, fun i v hi hge => ?_⟩
  obtain ⟨hv, s, hs, e, he, hw⟩ := h1 i v hi hge
  exact ⟨hv, s, by omega, e, he, hw⟩

theorem alignAux_inv (gmap : List MapEntry) (hgi : spanMapInj gmap) (pl : List MapEntry) :
    ∀ s0 tsm cc m c, alignInv gmap s0 tsm → alignInj tsm →
      alignAux gmap pl s0 tsm cc = some (m, c) →
      alignInv gmap (s0 + pl.length) m ∧ alignInj m := by
  induction pl with
  | nil =>
    intro s0 tsm cc m c hInv hInj h
    simp only [alignAux] at h
    cases h
    exact ⟨by simpa using hInv, hInj⟩
  | cons pe rest ih =>
    intro s0 tsm cc m c hInv hInj h
    simp only [alignAux] at h
    have harith : s0 + (pe :: rest).length = s0 + 1 + rest.length := by
      simp only [List.length_cons]
      omega
    rw [harith]
    split at h
    · exact ih (s0 + 1) tsm cc m c (alignInv_mono gmap s0 (s0 + 1) (by omega) tsm hInv) hInj h
    next end_idx hpe =>
      split at h
      next hge => simp at h
      next ge hge =>
        split at h
        · split at h
          next hpw => simp at h
          next pwi hpw =>
            split at h
            next hgw => simp at h
            next gwi hgw =>
              split at h
              next hlen =>
                have hInv2 : alignInv gmap (s0 + 1) (tsm.set (pwi + 1) (some (gwi + 1))) := by
                  refine ⟨?_, ?_⟩
                  · rw [List.getElem?_set, if_neg (by omega)]
                    exact hInv.1
                  · intro i v hi hge1
                    rw [List.getElem?_set] at hi
                    by_cases hip : pwi + 1 = i
                    · rw [if_pos hip, if_pos hlen] at hi
                      have hv : v = gwi + 1 := by
                        injection hi with hi2
                        injection hi2 with hi3
                        omega
                      subst hv
                      refine ⟨by omega, s0, by omega, ge, hge, ?_⟩
                      rw [hgw]
                      simp
                    · rw [if_neg hip] at hi
                      obtain ⟨hv, s, hs, e, he, hw⟩ := hInv.2 i v hi hge1
                      exact ⟨hv, s, by omega, e, he, hw⟩
                have hInj2 : alignInj (tsm.set (pwi + 1) (some (gwi + 1))) := by
                  intro i j v hi hj
                  rw [List.getElem?_set] at hi hj
                  by_cases hip : pwi + 1 = i
                  · by_cases hjp : pwi + 1 = j
                    · omega
                    · rw [if_pos hip, if_pos hlen] at hi
                      rw [if_neg hjp] at hj
                      have hv : v = gwi + 1 := by
                        injection hi with hi2
                        injection hi2 with hi3
                        omega
                      subst hv
                      rcases Nat.eq_zero_or_pos j with hj0 | hjpos
                      · subst hj0
                        rw [hInv.1] at hj
                        injection hj with hj2
                        injection hj2 with hj3
                        omega
                      · obtain ⟨hv, s, hs, e, he, hw⟩ := hInv.2 j (gwi + 1) hj (by omega)
                        have heq : s = s0 := by
                          apply hgi s s0 e ge (gwi + 1 - 1) he hge hw
                          rw [hgw]
                          simp
                        omega
                  · by_cases hjp : pwi + 1 = j
                    · rw [if_neg hip] at hi
                      rw [if_pos hjp, if_pos hlen] at hj
                      have hv : v = gwi + 1 := by
                        injection hj with hj2
                        injection hj2 with hj3
                        omega
                      subst hv
                      rcases Nat.eq_zero_or_pos i with hi0 | hipos
                      · subst hi0
                        rw [hInv.1] at hi
                        injection hi with hi2
                        injection hi2 with hi3
                        omega
                      · obtain ⟨hv, s, hs, e, he, hw⟩ := hInv.2 i (gwi + 1) hi (by omega)
                        have heq : s = s0 := by
                          apply hgi s s0 e ge (gwi + 1 - 1) he hge hw
                          rw [hgw]
                          simp
                        omega
                    · rw [if_neg hip] at hi
                      rw [if_neg hjp] at hj
                      exact hInj i j v hi hj
                exact ih (s0 + 1) _ (cc + 1) m c hInv2 hInj2 h
              next hlen => simp at h
        · exact ih (s0 + 1) tsm cc m c (alignInv_mono gmap s0 (s0 + 1) (by omega) tsm hInv) hInj h

theorem alignAux_main (gmap : List MapEntry) (pl : List MapEntry) :
    ∀ s0 tsm cc m c, alignAux gmap pl s0 tsm cc = some (m, c) →
      m.length = tsm.length ∧
      cc ≤ c ∧
      c ≤ cc + pl.countP (fun e => e.ending.isSome) ∧
      c ≤ cc + (gmap.drop s0).countP (fun e => e.ending.isSome) ∧
      ((m.drop 1).countP Option.isSome + cc ≤ (tsm.drop 1).countP Option.isSome + c) ∧
      (c = cc → m = tsm) := by
  induction pl with
  | nil =>
    intro s0 tsm cc m c h
    simp only [alignAux] at h
    cases h
    simp
  | cons pe rest ih =>
    intro s0 tsm cc m c h
    simp only [alignAux] at h
    split at h
    next hpe =>
      obtain ⟨h1, h2, h3, h4, h5, h6⟩ := ih (s0 + 1) tsm cc m c h
      have hdrop := countP_drop_succ_le (fun e => e.ending.isSome) gmap s0
      refine ⟨h1, h2, ?_, by omega, h5, h6⟩
      have : List.countP (fun e => e.ending.isSome) (pe :: rest) =
          List.countP (fun e => e.ending.isSome) rest + if pe.ending.isSome then 1 else 0 := by
        rw [List.countP_cons]
      omega
    next end_idx hpe =>
      split at h
      next hge => simp at h
      next ge hge =>
        split at h
        next hcond =>
          split at h
          next hpw => simp at h
          next pwi hpw =>
            split at h
            next hgw => simp at h
            next gwi hgw =>
              split at h
              next hlen =>
                obtain ⟨h1, h2, h3, h4, h5, h6⟩ := ih (s0 + 1) _ (cc + 1) m c h
                have hgdrop := countP_drop_of_getElem (fun e => e.ending.isSome) gmap s0 ge hge
                  (by simp [hcond])
                have hpecnt : List.countP (fun e => e.ending.isSome) (pe :: rest) =
                    List.countP (fun e => e.ending.isSome) rest + 1 := by
                  rw [List.countP_cons, if_pos (by simp [hpe])]
                have hsetlen : (tsm.set (pwi + 1) (some (gwi + 1))).length = tsm.length := by
                  rw [List.length_set]
                have hsetcnt : ((tsm.set (pwi + 1) (some (gwi + 1))).drop 1).countP Option.isSome ≤
                    (tsm.drop 1).countP Option.isSome + 1 := by
                  rw [set_succ_drop_one]
                  exact countP_set_le Option.isSome (tsm.drop 1) pwi (some (gwi + 1))
                refine ⟨by omega, by omega, by omega, by omega, by omega, ?_⟩
                intro hc
                omega
              next hlen => simp at h
        next hcond =>
          obtain ⟨h1, h2, h3, h4, h5, h6⟩ := ih (s0 + 1) tsm cc m c h
          have hdrop := countP_drop_succ_le (fun e => e.ending.isSome) gmap s0
          refine ⟨h1, h2, ?_, by omega, h5, h6⟩
          have : List.countP (fun e => e.ending.isSome) (pe :: rest) =
              List.countP (fun e => e.ending.isSome) rest + if pe.ending.isSome then 1 else 0 := by
            rw [List.countP_cons]
          omega

theorem generate_length (ws : List String) (M : List MapEntry)
    (h : generate_start_end_map ws = some M) : M.length = streamLen ws := by
  have := buildMapAux_length ws 0 0 _ M h
  simpa [streamLen] using this

theorem map_predicted_main (p g : List WordInfo) (m : List (Option Nat)) (c : Nat)
    (h : map_predicted_with_gold_words p g = some (m, c)) :
    m.length = p.length + 1 ∧ c ≤ p.length ∧ c ≤ g.length ∧
    (m.drop 1).countP Option.isSome ≤ c ∧
    (c = 0 → m = some 0 :: List.replicate p.length (none : Option Nat)) ∧
    m[0]? = some (some 0) ∧ alignInj m := by
  simp only [map_predicted_with_gold_words] at h
  split at h
  next hpm => simp at h
  next pmap hpm =>
    split at h
    next hgm => simp at h
    next gmap hgm =>
      have htsm := init_two_set_map p.length
      have hmain := alignAux_main gmap pmap 0 _ 0 m c h
      obtain ⟨h1, _, h3, h4, h5, h6⟩ := hmain
      have hlen0 : ((List.replicate (p.length + 1) (none : Option Nat)).set 0 (some 0)).length
          = p.length + 1 := by
        rw [List.length_set, List.length_replicate]
      have hpcnt : pmap.countP (fun e => e.ending.isSome) ≤ p.length := by
        have := generate_countP (fun e => e.ending.isSome) _ pmap hpm (by rfl)
        simpa using this
      have hgcnt : gmap.countP (fun e => e.ending.isSome) ≤ g.length := by
        have := generate_countP (fun e => e.ending.isSome) _ gmap hgm (by rfl)
        simpa using this
      have hd1 : (((List.replicate (p.length + 1) (none : Option Nat)).set 0
          (some 0)).drop 1).countP Option.isSome = 0 := by
        rw [htsm]
        simp [List.countP_replicate]
      have hInvInj := alignAux_inv gmap (generate_inj _ gmap hgm) pmap 0 _ 0 m c
        ?_ ?_ h
      · refine ⟨by rw [h1, hlen0], by omega, ?_, by omega, ?_, hInvInj.1.1, hInvInj.2⟩
        · rw [List.drop_zero] at h4
          omega
        · intro hc0
          rw [h6 hc0, htsm]
      · constructor
        · rw [htsm]
          simp
        · intro i v hi hge
          rw [htsm] at hi
          cases i with
          | zero => omega
          | succ k =>
            rw [List.getElem?_cons_succ, List.getElem?_replicate] at hi
            split at hi
            · simp at hi
            · simp at hi
      · intro i j v hi hj
        rw [htsm] at hi hj
        cases i with
        | zero =>
          cases j with
          | zero => rfl
          | succ k =>
            rw [List.getElem?_cons_succ, List.getElem?_replicate] at hj
            split at hj
            · simp at hj
            · simp at hj
        | succ k =>
          rw [List.getElem?_cons_succ, List.getElem?_replicate] at hi
          split at hi
          · simp at hi
          · simp at hi

/-! ### Claim theorems -/

/-- C1 counterexample: with an empty predicted list and a non-empty gold
list, `get_parser_evaluation` does NOT return a record with zero precision
and recall — the unguarded division `correct_count / len(predicted_list)`
raises `ZeroDivisionError` (modelled as `none`). -/
theorem C1_counterexample :
    get_parser_evaluation [] [⟨"a", "N", 0, "root"⟩] = none := by rfl

/-- C1 (amended): for every input where the predicted list is empty and
the gold list is non-empty, `get_parser_evaluation` raises a
division-by-zero error while computing the segmentation precision, instead
of returning a record; the degenerate-to-zero policy only covers the
`pos_acc`/`uas_score`/`las_score` divisions by the correct-segmentation
count and the F1 combiner. -/
theorem C1_empty_predicted_raises (gold : List WordInfo) (hg : gold ≠ []) :
    get_parser_evaluation [] gold = none := by
  simp only [get_parser_evaluation]
  split
  · rfl
  next pr hpr =>
    split
    · rfl
    · split
      · rfl
      · simp

/-- C1 witness: the amended statement applied to a concrete one-token gold
list. -/
theorem C1_witness :
    ([⟨"a", "N", 0, "root"⟩] : List WordInfo) ≠ [] ∧
      get_parser_evaluation [] [⟨"a", "N", 0, "root"⟩] = none :=
  ⟨by decide, C1_empty_predicted_raises [⟨"a", "N", 0, "root"⟩] (by decide)⟩

/-- C6: whenever `map_predicted_with_gold_words` returns an alignment map,
its entry 0 is 0 (ROOT maps to ROOT) and its defined entries are
injective: no two distinct predicted indices map to the same gold
index. -/
theorem C6_alignment_root_injective (p g : List WordInfo) (m : List (Option Nat)) (c : Nat)
    (h : map_predicted_with_gold_words p g = some (m, c)) :
    m[0]? = some (some 0) ∧
    ∀ (i j v : Nat), m[i]? = some (some v) → m[j]? = some (some v) → i = j := by
  have hmain := map_predicted_main p g m c h
  exact ⟨hmain.2.2.2.2.2.1, hmain.2.2.2.2.2.2⟩

/-- C6 witness: the invariant evaluated on a concrete aligned pair. -/
theorem C6_witness :
    map_predicted_with_gold_words [⟨"ab", "N", 0, "root"⟩] [⟨"ab", "N", 0, "root"⟩] =
      some ([some 0, some 1], 1) ∧
    (([some 0, some 1] : List (Option Nat))[0]? = some (some 0) ∧
      ∀ (i j v : Nat), ([some 0, some 1] : List (Option Nat))[i]? = some (some v) →
        ([some 0, some 1] : List (Option Nat))[j]? = some (some v) → i = j) :=
  ⟨by rfl, C6_alignment_root_injective [⟨"ab", "N", 0, "root"⟩] [⟨"ab", "N", 0, "root"⟩]
    [some 0, some 1] 1 (by rfl)⟩

/-- C10: `get_epoch_evaluation` on an empty record list divides the rate
sums by `n_eval = 0` and raises a `ZeroDivisionError` (modelled as
`none`); the degenerate-to-zero policy exists only at the sentence
level. -/
theorem C10_epoch_empty_raises : get_epoch_evaluation [] = none := by rfl

/-! ### The attribute scorers on an all-unaligned map (zero correct segmentations) -/

theorem posMatchAux_skip (gold : List WordInfo) (n : Nat) (pl : List WordInfo) :
    ∀ idx cc, idx + pl.length ≤ n →
      posMatchAux gold (some 0 :: List.replicate n (none : Option Nat)) pl idx cc = some cc := by
  induction pl with
  | nil => intro idx cc hle; simp only [posMatchAux]
  | cons wi rest ih =>
    intro idx cc hle
    simp only [posMatchAux]
    rw [pyGet_natCast_add_one, List.getElem?_cons_succ, List.getElem?_replicate,
      if_pos (by simp only [List.length_cons] at hle; omega)]
    exact ih (idx + 1) cc (by simp only [List.length_cons] at hle; omega)

theorem uasLasAux_skip (gold : List WordInfo) (n : Nat) (pl : List WordInfo) :
    ∀ idx u l, idx + pl.length ≤ n →
      uasLasAux gold (some 0 :: List.replicate n (none : Option Nat)) pl idx u l =
        some (u, l) := by
  induction pl with
  | nil => intro idx u l hle; simp only [uasLasAux]
  | cons wi rest ih =>
    intro idx u l hle
    simp only [uasLasAux]
    rw [pyGet_natCast_add_one, List.getElem?_cons_succ, List.getElem?_replicate,
      if_pos (by simp only [List.length_cons] at hle; omega)]
    exact ih (idx + 1) u l (by simp only [List.length_cons] at hle; omega)

/-! ### Upper bounds for the attribute scorers -/

theorem posMatchAux_le (gold : List WordInfo) (pgm : List (Option Nat)) (pl : List WordInfo) :
    ∀ idx cc r, posMatchAux gold pgm pl idx cc = some r →
      r ≤ cc + (pgm.drop (idx + 1)).countP Option.isSome := by
  induction pl with
  | nil =>
    intro idx cc r h
    simp only [posMatchAux] at h
    cases h
    simp
  | cons wi rest ih =>
    intro idx cc r h
    simp only [posMatchAux] at h
    split at h
    next hpg => simp at h
    next hpg =>
      have := ih (idx + 1) cc r h
      have hd := countP_drop_succ_le Option.isSome pgm (idx + 1)
      omega
    next wgi hpg =>
      rw [pyGet_natCast_add_one] at hpg
      have hcell := countP_drop_of_getElem Option.isSome pgm (idx + 1) (some wgi) hpg (by rfl)
      split at h
      next hgold => simp at h
      next gw hgold =>
        split at h
        · have := ih (idx + 1) (cc + 1) r h
          omega
        · have := ih (idx + 1) cc r h
          omega

theorem uasLasAux_bounds (gold : List WordInfo) (pgm : List (Option Nat)) (pl : List WordInfo) :
    ∀ idx u l ru rl, uasLasAux gold pgm pl idx u l = some (ru, rl) →
      u ≤ ru ∧ ru ≤ u + (pgm.drop (idx + 1)).countP Option.isSome ∧
      rl + u ≤ ru + l ∧ l ≤ rl := by
  induction pl with
  | nil =>
    intro idx u l ru rl h
    simp only [uasLasAux] at h
    cases h
    refine ⟨le_refl u, by simp, by omega, le_refl l⟩
  | cons wi rest ih =>
    intro idx u l ru rl h
    simp only [uasLasAux] at h
    split at h
    next hpg => simp at h
    next hpg =>
      obtain ⟨h1, h2, h3, h4⟩ := ih (idx + 1) u l ru rl h
      have hd := countP_drop_succ_le Option.isSome pgm (idx + 1)
      exact ⟨h1, by omega, h3, h4⟩
    next wgi hpg =>
      rw [pyGet_natCast_add_one] at hpg
      have hcell := countP_drop_of_getElem Option.isSome pgm (idx + 1) (some wgi) hpg (by rfl)
      split at h
      next hgold => simp at h
      next gw hgold =>
        split at h
        next hmh => simp at h
        next mh hmh =>
          split at h
          · split at h
            · obtain ⟨h1, h2, h3, h4⟩ := ih (idx + 1) (u + 1) (l + 1) ru rl h
              exact ⟨by omega, by omega, by omega, by omega⟩
            · obtain ⟨h1, h2, h3, h4⟩ := ih (idx + 1) (u + 1) l ru rl h
              exact ⟨by omega, by omega, by omega, by omega⟩
          · obtain ⟨h1, h2, h3, h4⟩ := ih (idx + 1) u l ru rl h
            exact ⟨h1, by omega, h3, h4⟩

/-! ### Inverting a successful `get_parser_evaluation` -/

theorem get_parser_evaluation_inv (p g : List WordInfo) (ev : Evaluation)
    (h : get_parser_evaluation p g = some ev) :
    ∃ m c pm u l, map_predicted_with_gold_words p g = some (m, c) ∧
      get_pos_match p g m = some pm ∧ get_uas_las_match p g m = some (u, l) ∧
      p.length ≠ 0 ∧ g.length ≠ 0 ∧
      ev = mkEvaluation p.length g.length c pm u l := by
  simp only [get_parser_evaluation] at h
  split at h
  next hm => simp at h
  next m c hm =>
    split at h
    next hpos => simp at h
    next pm hpos =>
      split at h
      next huas => simp at h
      next u l huas =>
        split at h
        next hcond => simp at h
        next hcond =>
          push_neg at hcond
          injection h with hev
          exact ⟨m, c, pm, u, l, hm, hpos, huas, hcond.1, hcond.2, hev.symm⟩

theorem ratio_bounds (a b : Nat) (hab : a ≤ b) (hb : b ≠ 0) :
    0 ≤ ((a : ℚ) / (b : ℚ)) * 100 ∧ ((a : ℚ) / (b : ℚ)) * 100 ≤ 100 := by
  have hb0 : (0 : ℚ) < (b : ℚ) := by exact_mod_cast Nat.pos_of_ne_zero hb
  constructor
  · positivity
  · have h1 : (a : ℚ) ≤ (b : ℚ) := by exact_mod_cast hab
    have h2 : (a : ℚ) / (b : ℚ) ≤ 1 := (div_le_one hb0).mpr h1
    nlinarith

theorem f1_bounds (x y : ℚ) (hx0 : 0 ≤ x) (hx1 : x ≤ 100) (hy0 : 0 ≤ y) (hy1 : y ≤ 100) :
    0 ≤ get_f1_score x y ∧ get_f1_score x y ≤ 100 := by
  unfold get_f1_score
  split
  next hpos =>
    constructor
    · positivity
    · rw [div_le_iff hpos]
      nlinarith
  next => norm_num

/-- C5: with non-empty predicted and gold lists and a zero
correct-segmentation count, `get_parser_evaluation` succeeds (no division
by zero) and the guarded ternaries return `pos_acc = uas_score =
las_score = 0`; moreover `get_f1_score` returns 0 whenever
`precision + recall = 0`. -/
theorem C5_zero_segmentation_guard (p g : List WordInfo) (m : List (Option Nat))
    (hp : p ≠ []) (hg : g ≠ [])
    (hm : map_predicted_with_gold_words p g = some (m, 0)) :
    (∃ ev, get_parser_evaluation p g = some ev ∧
      ev.pos_acc = 0 ∧ ev.uas_score = 0 ∧ ev.las_score = 0) ∧
    ∀ x y : ℚ, x + y = 0 → get_f1_score x y = 0 := by
  constructor
  · have hmain := map_predicted_main p g m 0 hm
    have hm0 : m = some 0 :: List.replicate p.length (none : Option Nat) :=
      hmain.2.2.2.2.1 rfl
    have hpos : get_pos_match p g m = some 0 := by
      rw [hm0]
      exact posMatchAux_skip g p.length p 0 0 (by omega)
    have huas : get_uas_las_match p g m = some (0, 0) := by
      rw [hm0]
      exact uasLasAux_skip g p.length p 0 0 0 (by omega)
    refine ⟨mkEvaluation p.length g.length 0 0 0 0, ?_, ?_, ?_, ?_⟩
    · simp only [get_parser_evaluation, hm, hpos, huas]
      rw [if_neg]
      push_neg
      exact ⟨by simpa using hp, by simpa using hg⟩
    · simp [mkEvaluation]
    · simp [mkEvaluation]
    · simp [mkEvaluation]
  · intro x y hxy
    simp [get_f1_score, hxy]

/-- C5 witness: the spec's own concrete zero-overlap segmentation example
(`["ab","cd"]` against `["a","bcd"]`). -/
theorem C5_witness :
    (([⟨"ab", "N", 0, "r"⟩, ⟨"cd", "N", 1, "r"⟩] : List WordInfo) ≠ [] ∧
      ([⟨"a", "N", 0, "r"⟩, ⟨"bcd", "N", 1, "r"⟩] : List WordInfo) ≠ [] ∧
      map_predicted_with_gold_words [⟨"ab", "N", 0, "r"⟩, ⟨"cd", "N", 1, "r"⟩]
        [⟨"a", "N", 0, "r"⟩, ⟨"bcd", "N", 1, "r"⟩] = some ([some 0, none, none], 0)) ∧
    ((∃ ev, get_parser_evaluation [⟨"ab", "N", 0, "r"⟩, ⟨"cd", "N", 1, "r"⟩]
        [⟨"a", "N", 0, "r"⟩, ⟨"bcd", "N", 1, "r"⟩] = some ev ∧
        ev.pos_acc = 0 ∧ ev.uas_score = 0 ∧ ev.las_score = 0) ∧
      ∀ x y : ℚ, x + y = 0 → get_f1_score x y = 0) :=
  ⟨⟨by decide, by decide, by rfl⟩,
    C5_zero_segmentation_guard [⟨"ab", "N", 0, "r"⟩, ⟨"cd", "N", 1, "r"⟩]
      [⟨"a", "N", 0, "r"⟩, ⟨"bcd", "N", 1, "r"⟩] [some 0, none, none]
      (by decide) (by decide) (by rfl)⟩

/-- C7: every rate field of a successfully produced sentence evaluation
record lies in `[0, 100]`, and the underlying counts are ordered:
`correct_count` never exceeds either list length, the POS and UAS match
counts never exceed `correct_count`, and the LAS count never exceeds the
UAS count. -/
theorem C7_rates_bounded (p g : List WordInfo) (ev : Evaluation)
    (hp : p ≠ []) (hg : g ≠ [])
    (h : get_parser_evaluation p g = some ev) : ratesBounded p g ev := by
  obtain ⟨m, c, pm, u, l, hm, hpos, huas, hnp, hng, hev⟩ := get_parser_evaluation_inv p g ev h
  have hmain := map_predicted_main p g m c hm
  obtain ⟨hlen, hcp, hcg, hdef, _, _, _⟩ := hmain
  have hpm : pm ≤ c := by
    have := posMatchAux_le g m p 0 0 pm hpos
    simpa using le_trans (by simpa using this) hdef
  have huasb := uasLasAux_bounds g m p 0 0 0 u l huas
  have hu : u ≤ c := by
    have h2 := huasb.2.1
    simp only [Nat.zero_add] at h2
    exact le_trans h2 hdef
  have hl : l ≤ u := by
    have h3 := huasb.2.2.1
    omega
  have huc : u ≤ c := hu
  subst hev
  have hprec := ratio_bounds c p.length hcp hnp
  have hrec := ratio_bounds c g.length hcg hng
  have huasp := ratio_bounds u p.length (le_trans hu hcp) hnp
  have huasr := ratio_bounds u g.length (le_trans hu hcg) hng
  have hlasp := ratio_bounds l p.length (le_trans (le_trans hl hu) hcp) hnp
  have hlasr := ratio_bounds l g.length (le_trans (le_trans hl hu) hcg) hng
  have hf1 := f1_bounds _ _ hprec.1 hprec.2 hrec.1 hrec.2
  have huf1 := f1_bounds _ _ huasp.1 huasp.2 huasr.1 huasr.2
  have hlf1 := f1_bounds _ _ hlasp.1 hlasp.2 hlasr.1 hlasr.2
  have hposacc : 0 ≤ (if c > 0 then ((pm : ℚ) / (c : ℚ)) * 100 else 0) ∧
      (if c > 0 then ((pm : ℚ) / (c : ℚ)) * 100 else 0) ≤ 100 := by
    split
    next hc => exact ratio_bounds pm c hpm (by omega)
    next => norm_num
  have huasacc : 0 ≤ (if c > 0 then ((u : ℚ) / (c : ℚ)) * 100 else 0) ∧
      (if c > 0 then ((u : ℚ) / (c : ℚ)) * 100 else 0) ≤ 100 := by
    split
    next hc => exact ratio_bounds u c hu (by omega)
    next => norm_num
  have hlasacc : 0 ≤ (if c > 0 then ((l : ℚ) / (c : ℚ)) * 100 else 0) ∧
      (if c > 0 then ((l : ℚ) / (c : ℚ)) * 100 else 0) ≤ 100 := by
    split
    next hc => exact ratio_bounds l c (le_trans hl hu) (by omega)
    next => norm_num
  exact ⟨hprec, hrec, hf1, hposacc, huasacc, huasp, huasr, huf1, hlasacc,
    hlasp, hlasr, hlf1, hcp, hcg, hpm, hu, hl⟩

/-- C7 witness: the bounds evaluated on a concrete exact-match pair. -/
theorem C7_witness :
    ∃ ev, get_parser_evaluation [⟨"ab", "N", 0, "root"⟩] [⟨"ab", "N", 0, "root"⟩] = some ev ∧
      ratesBounded [⟨"ab", "N", 0, "root"⟩] [⟨"ab", "N", 0, "root"⟩] ev :=
  ⟨mkEvaluation 1 1 1 1 1 1, by rfl,
    C7_rates_bounded [⟨"ab", "N", 0, "root"⟩] [⟨"ab", "N", 0, "root"⟩]
      (mkEvaluation 1 1 1 1 1 1) (by decide) (by decide) (by rfl)⟩

/-- C4: in a successfully produced record with a positive
correct-segmentation count, `uas_score`/`las_score` divide the match
counts by `correct_count`, while `uas_precision`/`uas_recall` (and the LAS
versions) divide by the raw predicted/gold lengths — both conventions are
present, with distinct denominators. -/
theorem C4_two_denominators (p g : List WordInfo) (ev : Evaluation)
    (h : get_parser_evaluation p g = some ev) (hc : 0 < ev.correct_count) :
    ev.uas_score = ((ev.uas_match : ℚ) / (ev.correct_count : ℚ)) * 100 ∧
    ev.las_score = ((ev.las_match : ℚ) / (ev.correct_count : ℚ)) * 100 ∧
    ev.uas_precision = ((ev.uas_match : ℚ) / (p.length : ℚ)) * 100 ∧
    ev.uas_recall = ((ev.uas_match : ℚ) / (g.length : ℚ)) * 100 ∧
    ev.las_precision = ((ev.las_match : ℚ) / (p.length : ℚ)) * 100 ∧
    ev.las_recall = ((ev.las_match : ℚ) / (g.length : ℚ)) * 100 ∧
    ev.predicted_list_len = p.length ∧ ev.gold_list_len = g.length := by
  obtain ⟨m, c, pm, u, l, hm, hpos, huas, hnp, hng, hev⟩ := get_parser_evaluation_inv p g ev h
  subst hev
  simp only [mkEvaluation] at hc ⊢
  rw [if_pos hc, if_pos hc]
  simp

/-- C4 witness: the two conventions evaluated on a concrete exact-match
pair. -/
theorem C4_witness :
    (get_parser_evaluation [⟨"ab", "N", 0, "root"⟩] [⟨"ab", "N", 0, "root"⟩] =
        some (mkEvaluation 1 1 1 1 1 1) ∧
      0 < (mkEvaluation 1 1 1 1 1 1).correct_count) ∧
    ((mkEvaluation 1 1 1 1 1 1).uas_score =
        (((mkEvaluation 1 1 1 1 1 1).uas_match : ℚ) /
          ((mkEvaluation 1 1 1 1 1 1).correct_count : ℚ)) * 100 ∧
      (mkEvaluation 1 1 1 1 1 1).las_score =
        (((mkEvaluation 1 1 1 1 1 1).las_match : ℚ) /
          ((mkEvaluation 1 1 1 1 1 1).correct_count : ℚ)) * 100 ∧
      (mkEvaluation 1 1 1 1 1 1).uas_precision =
        (((mkEvaluation 1 1 1 1 1 1).uas_match : ℚ) /
          (([⟨"ab", "N", 0, "root"⟩] : List WordInfo).length : ℚ)) * 100 ∧
      (mkEvaluation 1 1 1 1 1 1).uas_recall =
        (((mkEvaluation 1 1 1 1 1 1).uas_match : ℚ) /
          (([⟨"ab", "N", 0, "root"⟩] : List WordInfo).length : ℚ)) * 100 ∧
      (mkEvaluation 1 1 1 1 1 1).las_precision =
        (((mkEvaluation 1 1 1 1 1 1).las_match : ℚ) /
          (([⟨"ab", "N", 0, "root"⟩] : List WordInfo).length : ℚ)) * 100 ∧
      (mkEvaluation 1 1 1 1 1 1).las_recall =
        (((mkEvaluation 1 1 1 1 1 1).las_match : ℚ) /
          (([⟨"ab", "N", 0, "root"⟩] : List WordInfo).length : ℚ)) * 100 ∧
      (mkEvaluation 1 1 1 1 1 1).predicted_list_len =
        ([⟨"ab", "N", 0, "root"⟩] : List WordInfo).length ∧
      (mkEvaluation 1 1 1 1 1 1).gold_list_len =
        ([⟨"ab", "N", 0, "root"⟩] : List WordInfo).length) :=
  ⟨⟨by rfl, by decide⟩,
    C4_two_denominators [⟨"ab", "N", 0, "root"⟩] [⟨"ab", "N", 0, "root"⟩]
      (mkEvaluation 1 1 1 1 1 1) (by rfl) (by decide)⟩

/-- C9: `get_epoch_evaluation` returns, for each rate field, the
unweighted arithmetic mean of the per-sentence rates, and for each count
field the sum of the raw counts; on the spec's concrete three-sentence
batch (correct counts 2/0/3 out of gold lengths 2/2/3, built by running
`get_parser_evaluation` itself) the summed `correct_words`/`all_gold_words`
are 5 and 7 while the macro-averaged `word_recall` is 200/3, so the sums
and the mean of rates are genuinely different statistics. -/
theorem C9_epoch_macro_and_sums :
    (∀ l : List Evaluation, l ≠ [] → ∃ ep, get_epoch_evaluation l = some ep ∧
      ep.word_precision = (l.map (·.precision)).sum / (l.length : ℚ) ∧
      ep.word_recall = (l.map (·.recall_)).sum / (l.length : ℚ) ∧
      ep.word_f1_score = (l.map (·.f1_score)).sum / (l.length : ℚ) ∧
      ep.pos_accuracy = (l.map (·.pos_acc)).sum / (l.length : ℚ) ∧
      ep.uas_accuracy = (l.map (·.uas_score)).sum / (l.length : ℚ) ∧
      ep.las_accuracy = (l.map (·.las_score)).sum / (l.length : ℚ) ∧
      ep.uas_f1_score = (l.map (·.uas_f1_score)).sum / (l.length : ℚ) ∧
      ep.las_f1_score = (l.map (·.las_f1_score)).sum / (l.length : ℚ) ∧
      ep.correct_words = (l.map (·.correct_count)).sum ∧
      ep.all_gold_words = (l.map (·.gold_list_len)).sum ∧
      ep.all_predicted_words = (l.map (·.predicted_list_len)).sum ∧
      ep.correct_pos = (l.map (·.pos_match)).sum ∧
      ep.correct_uas = (l.map (·.uas_match)).sum ∧
      ep.correct_las = (l.map (·.las_match)).sum) ∧
    (∃ e1 e2 e3 ep,
      get_parser_evaluation [⟨"a", "N", 0, "r"⟩, ⟨"b", "N", 1, "r"⟩]
        [⟨"a", "N", 0, "r"⟩, ⟨"b", "N", 1, "r"⟩] = some e1 ∧
      get_parser_evaluation [⟨"ab", "N", 0, "r"⟩, ⟨"cd", "N", 1, "r"⟩]
        [⟨"a", "N", 0, "r"⟩, ⟨"bcd", "N", 1, "r"⟩] = some e2 ∧
      get_parser_evaluation [⟨"a", "N", 0, "r"⟩, ⟨"b", "N", 1, "r"⟩, ⟨"c", "N", 2, "r"⟩]
        [⟨"a", "N", 0, "r"⟩, ⟨"b", "N", 1, "r"⟩, ⟨"c", "N", 2, "r"⟩] = some e3 ∧
      get_epoch_evaluation [e1, e2, e3] = some ep ∧
      e1.correct_count = 2 ∧ e2.correct_count = 0 ∧ e3.correct_count = 3 ∧
      e1.gold_list_len = 2 ∧ e2.gold_list_len = 2 ∧ e3.gold_list_len = 3 ∧
      e1.recall_ = 100 ∧ e2.recall_ = 0 ∧ e3.recall_ = 100 ∧
      ep.correct_words = 5 ∧ ep.all_gold_words = 7 ∧ ep.word_recall = 200 / 3) := by
  constructor
  · intro l hl
    have hn : ¬ l.length = 0 := by
      simpa using hl
    refine ⟨_, by rw [get_epoch_evaluation, if_neg hn], ?_, ?_, ?_, ?_, ?_, ?_, ?_, ?_,
      ?_, ?_, ?_, ?_, ?_, ?_⟩
    all_goals rfl
  · have hep : get_epoch_evaluation
        [mkEvaluation 2 2 2 2 2 2, mkEvaluation 2 2 0 0 0 0, mkEvaluation 3 3 3 3 3 3] =
        some ⟨200 / 3, 200 / 3, 200 / 3, 200 / 3, 200 / 3, 200 / 3, 200 / 3, 200 / 3,
          5, 7, 7, 5, 5, 5⟩ := by
      simp only [get_epoch_evaluation, mkEvaluation, get_f1_score, List.map_cons,
        List.map_nil, List.sum_cons, List.sum_nil, List.length_cons, List.length_nil]
      norm_num
    exact ⟨mkEvaluation 2 2 2 2 2 2, mkEvaluation 2 2 0 0 0 0, mkEvaluation 3 3 3 3 3 3,
      ⟨200 / 3, 200 / 3, 200 / 3, 200 / 3, 200 / 3, 200 / 3, 200 / 3, 200 / 3,
        5, 7, 7, 5, 5, 5⟩,
      by rfl, by rfl, by rfl, hep, by decide, by decide, by decide, by decide, by decide,
      by decide, by norm_num [mkEvaluation], by norm_num [mkEvaluation],
      by norm_num [mkEvaluation], by rfl, by rfl, by rfl⟩

/-- C9 witness: the macro-mean/sum characterization applied to a concrete
singleton record list. -/
theorem C9_witness :
    (([mkEvaluation 2 2 2 2 2 2] : List Evaluation) ≠ [] ) ∧
    (∃ ep, get_epoch_evaluation [mkEvaluation 2 2 2 2 2 2] = some ep ∧
      ep.word_precision = (([mkEvaluation 2 2 2 2 2 2] : List Evaluation).map (·.precision)).sum / ((([mkEvaluation 2 2 2 2 2 2] : List Evaluation).length : Nat) : ℚ) ∧
      ep.word_recall = (([mkEvaluation 2 2 2 2 2 2] : List Evaluation).map (·.recall_)).sum / ((([mkEvaluation 2 2 2 2 2 2] : List Evaluation).length : Nat) : ℚ) ∧
      ep.word_f1_score = (([mkEvaluation 2 2 2 2 2 2] : List Evaluation).map (·.f1_score)).sum / ((([mkEvaluation 2 2 2 2 2 2] : List Evaluation).length : Nat) : ℚ) ∧
      ep.pos_accuracy = (([mkEvaluation 2 2 2 2 2 2] : List Evaluation).map (·.pos_acc)).sum / ((([mkEvaluation 2 2 2 2 2 2] : List Evaluation).length : Nat) : ℚ) ∧
      ep.uas_accuracy = (([mkEvaluation 2 2 2 2 2 2] : List Evaluation).map (·.uas_score)).sum / ((([mkEvaluation 2 2 2 2 2 2] : List Evaluation).length : Nat) : ℚ) ∧
      ep.las_accuracy = (([mkEvaluation 2 2 2 2 2 2] : List Evaluation).map (·.las_score)).sum / ((([mkEvaluation 2 2 2 2 2 2] : List Evaluation).length : Nat) : ℚ) ∧
      ep.uas_f1_score = (([mkEvaluation 2 2 2 2 2 2] : List Evaluation).map (·.uas_f1_score)).sum / ((([mkEvaluation 2 2 2 2 2 2] : List Evaluation).length : Nat) : ℚ) ∧
      ep.las_f1_score = (([mkEvaluation 2 2 2 2 2 2] : List Evaluation).map (·.las_f1_score)).sum / ((([mkEvaluation 2 2 2 2 2 2] : List Evaluation).length : Nat) : ℚ) ∧
      ep.correct_words = (([mkEvaluation 2 2 2 2 2 2] : List Evaluation).map (·.correct_count)).sum ∧
      ep.all_gold_words = (([mkEvaluation 2 2 2 2 2 2] : List Evaluation).map (·.gold_list_len)).sum ∧
      ep.all_predicted_words = (([mkEvaluation 2 2 2 2 2 2] : List Evaluation).map (·.predicted_list_len)).sum ∧
      ep.correct_pos = (([mkEvaluation 2 2 2 2 2 2] : List Evaluation).map (·.pos_match)).sum ∧
      ep.correct_uas = (([mkEvaluation 2 2 2 2 2 2] : List Evaluation).map (·.uas_match)).sum ∧
      ep.correct_las = (([mkEvaluation 2 2 2 2 2 2] : List Evaluation).map (·.las_match)).sum) :=
  ⟨by decide, C9_epoch_macro_and_sums.1 [mkEvaluation 2 2 2 2 2 2] (by decide)⟩

/-! ### The attribute scorer against the spec's per-token criterion -/

theorem countP_range_shift (f : Nat → Bool) (idx k : Nat) :
    (List.range (k + 1)).countP (fun t => f (idx + t)) =
      (if f idx then 1 else 0) + (List.range k).countP (fun t => f (idx + 1 + t)) := by
  rw [List.range_succ_eq_map, List.countP_cons, List.countP_map]
  have h1 : ((fun t => f (idx + t)) ∘ Nat.succ) = fun t => f (idx + 1 + t) := by
    funext t
    simp only [Function.comp_apply]
    congr 1
    omega
  rw [h1]
  simp only [Nat.add_zero]
  omega


theorem uasLasAux_spec_counts (p g : List WordInfo) (pgm : List (Option Nat))
    (hlen : pgm.length = p.length + 1)
    (hg : ∀ (i gi : Nat), pgm[i]? = some (some gi) → 1 ≤ i → 1 ≤ gi ∧ gi ≤ g.length)
    (hh : ∀ wi ∈ p, wi.head_idx < pgm.length) :
    ∀ pl idx u l, pl = p.drop idx →
      uasLasAux g pgm pl idx u l =
        some (u + (List.range pl.length).countP
                (fun t => spec_unlabeled_correct p g pgm (idx + t)),
              l + (List.range pl.length).countP
                (fun t => spec_labeled_correct p g pgm (idx + t))) := by
  intro pl
  induction pl with
  | nil =>
    intro idx u l hpl
    simp [uasLasAux]
  | cons wi rest ih =>
    intro idx u l hpl
    have hidx : idx < p.length := by
      by_contra hcon
      rw [List.drop_eq_nil_of_le (by omega)] at hpl
      cases hpl
    have hsplit := List.drop_eq_getElem_cons (l := p) hidx
    rw [hsplit] at hpl
    have hwi : wi = p[idx] := by injection hpl
    have hrest : rest = p.drop (idx + 1) := by injection hpl
    have hpidx : p[idx]? = some wi := by
      rw [List.getElem?_eq_getElem hidx, hwi]
    have hi1 : idx + 1 < pgm.length := by omega
    have hLc : (wi :: rest).length = rest.length + 1 := by simp
    simp only [uasLasAux]
    rw [hLc, countP_range_shift (fun t => spec_unlabeled_correct p g pgm t) idx rest.length,
      countP_range_shift (fun t => spec_labeled_correct p g pgm t) idx rest.length]
    split
    next h0 =>
      rw [pyGet_natCast_add_one, List.getElem?_eq_getElem hi1] at h0
      cases h0
    next h0 =>
      rw [pyGet_natCast_add_one] at h0
      have hU : spec_unlabeled_correct p g pgm idx = false := by
        simp [spec_unlabeled_correct, h0]
      have hL : spec_labeled_correct p g pgm idx = false := by
        simp [spec_labeled_correct, h0]
      rw [ih (idx + 1) u l hrest, hU, hL]
      simp
    next wgi h0 =>
      rw [pyGet_natCast_add_one] at h0
      obtain ⟨hgi1, hgig⟩ := hg (idx + 1) wgi h0 (by omega)
      have hgidx : wgi - 1 < g.length := by omega
      split
      next h1 =>
        rw [pyGet_natCast_sub_one g wgi hgi1, List.getElem?_eq_getElem hgidx] at h1
        cases h1
      next gw h1 =>
        rw [pyGet_natCast_sub_one g wgi hgi1] at h1
        have hwmem : wi ∈ p := by
          rw [hwi]
          exact List.getElem_mem hidx
        have hhead : wi.head_idx < pgm.length := hh wi hwmem
        split
        next h2 =>
          rw [pyGet_natCast, List.getElem?_eq_getElem hhead] at h2
          cases h2
        next mh h2 =>
          rw [pyGet_natCast] at h2
          by_cases hmh : mh = some gw.head_idx
          · rw [if_pos hmh]
            have hU : spec_unlabeled_correct p g pgm idx = true := by
              simp [spec_unlabeled_correct, h0, hpidx, h1, h2, hmh]
            by_cases hlab : wi.dep_label = gw.dep_label
            · rw [if_pos hlab, ih (idx + 1) (u + 1) (l + 1) hrest, hU]
              have hL : spec_labeled_correct p g pgm idx = true := by
                simp [spec_labeled_correct, h0, hpidx, h1, h2, hmh, hlab]
              rw [hL]
              simp only [Option.some.injEq, Prod.mk.injEq]
              constructor <;> (simp; try omega)
            · rw [if_neg hlab, ih (idx + 1) (u + 1) l hrest, hU]
              have hL : spec_labeled_correct p g pgm idx = false := by
                simp [spec_labeled_correct, h0, hpidx, h1, h2, hlab]
              rw [hL]
              simp only [Option.some.injEq, Prod.mk.injEq]
              constructor <;> (simp; try omega)
          · rw [if_neg hmh, ih (idx + 1) u l hrest]
            have hU : spec_unlabeled_correct p g pgm idx = false := by
              simp [spec_unlabeled_correct, h0, hpidx, h1, h2, hmh]
            have hL : spec_labeled_correct p g pgm idx = false := by
              simp [spec_labeled_correct, h0, hpidx, h1, h2, hmh]
            rw [hU, hL]
            simp only [Option.some.injEq, Prod.mk.injEq]
            constructor <;> (simp; try omega)

/-- C2: for a well-formed alignment map (right length, ROOT entry,
in-range gold values and in-range predicted heads), `get_uas_las_match`
counts exactly the predicted tokens satisfying the spec's criterion: an
aligned token is unlabeled-correct iff the alignment map applied to its
predicted head index is defined and equals the gold token's head index
(never raw index equality), and labeled-correct iff additionally the
dependency labels agree; and because the map sends 0 to 0, a predicted
root attachment (head 0) is unlabeled-correct exactly when the aligned
gold token's head index is 0. -/
theorem C2_head_through_alignment (p g : List WordInfo) (pgm : List (Option Nat))
    (hlen : pgm.length = p.length + 1)
    (hroot : pgm[0]? = some (some 0))
    (hg : ∀ (i gi : Nat), pgm[i]? = some (some gi) → 1 ≤ i → 1 ≤ gi ∧ gi ≤ g.length)
    (hh : ∀ wi ∈ p, wi.head_idx < pgm.length) :
    get_uas_las_match p g pgm =
      some ((List.range p.length).countP (spec_unlabeled_correct p g pgm),
            (List.range p.length).countP (spec_labeled_correct p g pgm)) ∧
    ∀ (i gi : Nat) (wi : WordInfo), p[i]? = some wi → wi.head_idx = 0 →
      pgm[i + 1]? = some (some gi) →
      (spec_unlabeled_correct p g pgm i = true ↔
        ∃ gw, g[gi - 1]? = some gw ∧ gw.head_idx = 0) := by
  constructor
  · have hrun := uasLasAux_spec_counts p g pgm hlen hg hh p 0 0 0 (by simp)
    rw [get_uas_las_match, hrun]
    have hfU : (fun t => spec_unlabeled_correct p g pgm (0 + t)) =
        spec_unlabeled_correct p g pgm := by
      funext t
      rw [Nat.zero_add]
    have hfL : (fun t => spec_labeled_correct p g pgm (0 + t)) =
        spec_labeled_correct p g pgm := by
      funext t
      rw [Nat.zero_add]
    rw [hfU, hfL]
    simp
  · intro i gi wi hpi hh0 hmi
    have hb := hg (i + 1) gi hmi (by omega)
    have hgidx : gi - 1 < g.length := by omega
    have hgold : g[gi - 1]? = some g[gi - 1] := List.getElem?_eq_getElem hgidx
    constructor
    · intro hspec
      refine ⟨g[gi - 1], hgold, ?_⟩
      simp only [spec_unlabeled_correct, hmi, hpi, hgold, hh0, hroot] at hspec
      have h0 : 0 = (g[gi - 1]).head_idx := by simpa using hspec
      exact h0.symm
    · rintro ⟨gw, hgw, hgw0⟩
      have hgweq : g[gi - 1] = gw := by
        rw [hgold] at hgw
        injection hgw
      simp [spec_unlabeled_correct, hmi, hpi, hgold, hh0, hroot, hgweq, hgw0]

/-- C2 witness: the criterion evaluated on a concrete one-token pair with
the map `[0 ↦ 0, 1 ↦ 1]`. -/
theorem C2_witness :
    (([some 0, some 1] : List (Option Nat)).length =
        ([⟨"ab", "N", 0, "root"⟩] : List WordInfo).length + 1 ∧
      ([some 0, some 1] : List (Option Nat))[0]? = some (some 0)) ∧
    (get_uas_las_match [⟨"ab", "N", 0, "root"⟩] [⟨"ab", "N", 0, "root"⟩] [some 0, some 1] =
      some ((List.range ([⟨"ab", "N", 0, "root"⟩] : List WordInfo).length).countP
              (spec_unlabeled_correct [⟨"ab", "N", 0, "root"⟩] [⟨"ab", "N", 0, "root"⟩]
                [some 0, some 1]),
            (List.range ([⟨"ab", "N", 0, "root"⟩] : List WordInfo).length).countP
              (spec_labeled_correct [⟨"ab", "N", 0, "root"⟩] [⟨"ab", "N", 0, "root"⟩]
                [some 0, some 1])) ∧
    ∀ (i gi : Nat) (wi : WordInfo),
      ([⟨"ab", "N", 0, "root"⟩] : List WordInfo)[i]? = some wi → wi.head_idx = 0 →
      ([some 0, some 1] : List (Option Nat))[i + 1]? = some (some gi) →
      (spec_unlabeled_correct [⟨"ab", "N", 0, "root"⟩] [⟨"ab", "N", 0, "root"⟩]
          [some 0, some 1] i = true ↔
        ∃ gw, ([⟨"ab", "N", 0, "root"⟩] : List WordInfo)[gi - 1]? = some gw ∧
          gw.head_idx = 0)) :=
  ⟨⟨by decide, by decide⟩,
    C2_head_through_alignment [⟨"ab", "N", 0, "root"⟩] [⟨"ab", "N", 0, "root"⟩]
      [some 0, some 1] (by decide) (by decide)
      (by
        intro i gi hi h1
        match i, hi with
        | 1, hi =>
          have h2 : 1 = gi := by simpa using hi
          simp only [List.length_cons, List.length_nil]
          omega
        | n + 2, hi => simp at hi)
      (by decide)⟩

/-! ### Success and lookup characterization of the span-map builder -/

theorem streamLen_cons (w : String) (ws : List String) :
    streamLen (w :: ws) = w.length + streamLen ws := by
  simp [streamLen]

theorem buildMapAux_success (ws : List String) :
    ∀ j off m, (∀ w ∈ ws, w.length ≠ 0) → off + streamLen ws ≤ m.length →
      ∃ M, buildMapAux ws j off m = some M := by
  induction ws with
  | nil =>
    intro j off m hne hle
    exact ⟨m, rfl⟩
  | cons w ws ih =>
    intro j off m hne hle
    rw [streamLen_cons] at hle
    have hw1 : w.length ≠ 0 := hne w (by simp)
    have hoff : off < m.length := by omega
    simp only [buildMapAux]
    rw [if_pos hoff]
    exact ih (j + 1) (off + w.length) _ (fun x hx => hne x (by simp [hx]))
      (by rw [List.length_set]; omega)

theorem generate_success (ws : List String) (hne : ∀ w ∈ ws, w.length ≠ 0) :
    ∃ M, generate_start_end_map ws = some M := by
  unfold generate_start_end_map
  exact buildMapAux_success ws 0 0 _ hne (by simp [streamLen])

theorem buildMapAux_wf (ws : List String) :
    ∀ j off m M, entryWF m j → buildMapAux ws j off m = some M →
      entryWF M (j + ws.length) := by
  induction ws with
  | nil =>
    intro j off m M hwf h
    simp only [buildMapAux] at h
    cases h
    simpa using hwf
  | cons w ws ih =>
    intro j off m M hwf h
    simp only [buildMapAux] at h
    split at h
    case isTrue hlt =>
      have hwf2 : entryWF (m.set off ⟨some (off + w.length), some j⟩) (j + 1) := by
        intro s e hs
        rw [List.getElem?_set] at hs
        by_cases hso : off = s
        · rw [if_pos hso, if_pos hlt] at hs
          cases hs
          exact Or.inr ⟨off + w.length, j, rfl, by omega⟩
        · rw [if_neg hso] at hs
          rcases hwf s e hs with hb | ⟨en, jj, he, hj⟩
          · exact Or.inl hb
          · exact Or.inr ⟨en, jj, he, by omega⟩
      have hconc := ih _ _ _ _ hwf2 h
      have harith : j + 1 + ws.length = j + (w :: ws).length := by
        simp only [List.length_cons]
        omega
      rwa [harith] at hconc
    case isFalse => cases h

theorem generate_wf (ws : List String) (M : List MapEntry)
    (h : generate_start_end_map ws = some M) : entryWF M ws.length := by
  have hbase : entryWF
      (List.replicate ((ws.map String.length).sum) (⟨none, none⟩ : MapEntry)) 0 := by
    intro s e hs
    rw [List.getElem?_replicate] at hs
    split at hs
    · cases hs
      exact Or.inl rfl
    · cases hs
  have := buildMapAux_wf ws 0 0 _ M hbase h
  simpa using this

theorem lookupSpan_lt (ws : List String) :
    ∀ j off i, i < off → lookupSpan ws j off i = none := by
  induction ws with
  | nil => intro j off i hi; rfl
  | cons w ws ih =>
    intro j off i hi
    simp only [lookupSpan]
    rw [if_neg (by omega)]
    exact ih (j + 1) (off + w.length) i (by omega)

theorem lookupSpan_offset (ws : List String) :
    ∀ j off i en jj, lookupSpan ws j off i = some (en, jj) →
      j ≤ jj ∧ jj - j < ws.length ∧ i = off + startOffset ws (jj - j) := by
  induction ws with
  | nil => intro j off i en jj h; cases h
  | cons w ws ih =>
    intro j off i en jj h
    simp only [lookupSpan] at h
    split at h
    next hio =>
      injection h with h1
      obtain ⟨he, hj⟩ : en = off + w.length ∧ j = jj := by
        constructor <;> injection h1 <;> omega
      subst hj
      refine ⟨le_refl j, by simp, ?_⟩
      simp [startOffset, streamLen, hio]
    next hio =>
      obtain ⟨h1, h2, h3⟩ := ih (j + 1) (off + w.length) i en jj h
      refine ⟨by omega, by simp only [List.length_cons]; omega, ?_⟩
      have hk : jj - j = (jj - (j + 1)) + 1 := by omega
      rw [hk]
      have hso : startOffset (w :: ws) ((jj - (j + 1)) + 1) =
          w.length + startOffset ws (jj - (j + 1)) := by
        simp [startOffset, streamLen]
      rw [hso]
      omega

theorem buildMapAux_lookup (ws : List String) :
    ∀ j off m M, (∀ w ∈ ws, w.length ≠ 0) → buildMapAux ws j off m = some M →
      (∀ (i : Nat), lookupSpan ws j off i = none → M[i]? = m[i]?) ∧
      (∀ (i en jj : Nat), lookupSpan ws j off i = some (en, jj) →
        M[i]? = some ⟨some en, some jj⟩) := by
  induction ws with
  | nil =>
    intro j off m M hne h
    simp only [buildMapAux] at h
    cases h
    exact ⟨fun i _ => rfl, fun i en jj h => by cases h⟩
  | cons w ws ih =>
    intro j off m M hne h
    simp only [buildMapAux] at h
    split at h
    case isTrue hlt =>
      have hw1 : w.length ≠ 0 := hne w (by simp)
      obtain ⟨ihn, ihs⟩ := ih (j + 1) (off + w.length) _ M
        (fun x hx => hne x (by simp [hx])) h
      constructor
      · intro i hnone
        simp only [lookupSpan] at hnone
        split at hnone
        · cases hnone
        next hio =>
          rw [ihn i hnone, List.getElem?_set, if_neg (by omega)]
      · intro i en jj hsome
        simp only [lookupSpan] at hsome
        split at hsome
        next hio =>
          injection hsome with h1
          obtain ⟨he, hj⟩ : en = off + w.length ∧ jj = j := by
            constructor <;> injection h1 <;> omega
          subst hio
          have hlk : lookupSpan ws (j + 1) (i + w.length) i = none :=
            lookupSpan_lt ws (j + 1) (i + w.length) i (by omega)
          rw [ihn i hlk, List.getElem?_set, if_pos rfl, if_pos hlt, he, hj]
        next hio =>
          exact ihs i en jj hsome
    case isFalse => cases h

theorem generate_word_idx_offset (ws : List String) (M : List MapEntry)
    (hne : ∀ w ∈ ws, w.length ≠ 0) (h : generate_start_end_map ws = some M) :
    ∀ (s j : Nat) (e : MapEntry), M[s]? = some e → e.word_idx = some j →
      s = startOffset ws j := by
  intro s j e hs hw
  obtain ⟨ihn, ihs⟩ := buildMapAux_lookup ws 0 0 _ M hne h
  cases hlk : lookupSpan ws 0 0 s with
  | none =>
    exfalso
    have hbase := ihn s hlk
    rw [hs, List.getElem?_replicate] at hbase
    split at hbase
    · injection hbase with hb
      rw [hb] at hw
      simp at hw
    · cases hbase
  | some pr =>
    obtain ⟨en, jj⟩ := pr
    have hcell := ihs s en jj hlk
    rw [hs] at hcell
    injection hcell with hc
    rw [hc] at hw
    simp only [Option.some.injEq] at hw
    obtain ⟨h1, h2, h3⟩ := lookupSpan_offset ws 0 0 s en jj hlk
    rw [← hw]
    simpa using h3

theorem alignAux_success (gmap : List MapEntry) (pl : List MapEntry) :
    ∀ s0 tsm cc,
      (∀ e ∈ pl, e = ⟨none, none⟩ ∨ ∃ (en j : Nat), e = ⟨some en, some j⟩ ∧ j + 1 < tsm.length) →
      s0 + pl.length ≤ gmap.length →
      (∀ (s : Nat) (e : MapEntry), gmap[s]? = some e → e.ending.isSome → e.word_idx.isSome) →
      ∃ r, alignAux gmap pl s0 tsm cc = some r := by
  induction pl with
  | nil =>
    intro s0 tsm cc hwf hgl hgwf
    exact ⟨(tsm, cc), rfl⟩
  | cons pe rest ih =>
    intro s0 tsm cc hwf hgl hgwf
    have hs0 : s0 < gmap.length := by
      simp only [List.length_cons] at hgl
      omega
    have hgl2 : s0 + 1 + rest.length ≤ gmap.length := by
      simp only [List.length_cons] at hgl
      omega
    have hwfrest : ∀ e ∈ rest, e = ⟨none, none⟩ ∨
        ∃ (en j : Nat), e = ⟨some en, some j⟩ ∧ j + 1 < tsm.length :=
      fun e he => hwf e (by simp [he])
    simp only [alignAux]
    split
    next hpend => exact ih (s0 + 1) tsm cc hwfrest hgl2 hgwf
    next en2 hpend =>
      split
      next hg0 =>
        rw [List.getElem?_eq_getElem hs0] at hg0
        cases hg0
      next ge hg0 =>
        split
        next hcond =>
          split
          next hpw =>
            exfalso
            rcases hwf pe (by simp) with hb | ⟨en, j, hpe2, hj⟩
            · rw [hb] at hpend
              cases hpend
            · rw [hpe2] at hpw
              cases hpw
          next pwi hpw =>
            split
            next hgw =>
              exfalso
              have hsome := hgwf s0 ge hg0 (by rw [hcond]; rfl)
              rw [hgw] at hsome
              cases hsome
            next gwi hgw =>
              split
              next hlt =>
                refine ih (s0 + 1) _ (cc + 1) ?_ hgl2 hgwf
                intro e he
                rcases hwfrest e he with hb | ⟨en3, j3, he3, hj3⟩
                · exact Or.inl hb
                · exact Or.inr ⟨en3, j3, he3, by rwa [List.length_set]⟩
              next hnlt =>
                exfalso
                rcases hwf pe (by simp) with hb | ⟨en, j, hpe2, hj⟩
                · rw [hb] at hpend
                  cases hpend
                · rw [hpe2] at hpw
                  have hjpwi : j = pwi := by
                    injection hpw
                  omega
        next hcond =>
          exact ih (s0 + 1) tsm cc hwfrest hgl2 hgwf

theorem init_alignInv (gmap : List MapEntry) (n : Nat) :
    alignInv gmap 0 ((List.replicate (n + 1) (none : Option Nat)).set 0 (some 0)) := by
  rw [init_two_set_map]
  constructor
  · simp
  · intro i v hi hge
    cases i with
    | zero => omega
    | succ k =>
      rw [List.getElem?_cons_succ, List.getElem?_replicate] at hi
      split at hi
      · simp at hi
      · simp at hi

theorem init_alignInj (n : Nat) :
    alignInj ((List.replicate (n + 1) (none : Option Nat)).set 0 (some 0)) := by
  rw [init_two_set_map]
  intro i j v hi hj
  cases i with
  | zero =>
    cases j with
    | zero => rfl
    | succ k =>
      rw [List.getElem?_cons_succ, List.getElem?_replicate] at hj
      split at hj
      · simp at hj
      · simp at hj
  | succ k =>
    rw [List.getElem?_cons_succ, List.getElem?_replicate] at hi
    split at hi
    · simp at hi
    · simp at hi

/-- C3 counterexample: predicted `["a","b"]` (stream length 2) against
gold `["a"]` (stream length 1) have different total lengths, yet
`map_predicted_with_gold_words` does NOT return a map and count — reading
the gold span map at offset 1 raises `IndexError` (modelled as `none`). -/
theorem C3_counterexample :
    streamLen (([⟨"a", "N", 0, "r"⟩, ⟨"b", "N", 1, "r"⟩] : List WordInfo).map (·.word)) ≠
      streamLen (([⟨"a", "N", 0, "r"⟩] : List WordInfo).map (·.word)) ∧
    map_predicted_with_gold_words [⟨"a", "N", 0, "r"⟩, ⟨"b", "N", 1, "r"⟩]
      [⟨"a", "N", 0, "r"⟩] = none := by
  constructor
  · decide
  · rfl

/-- C3 (amended): when every token text is non-empty and the gold
character stream is at least as long as the predicted stream,
`map_predicted_with_gold_words` examines only offsets within the predicted
stream's range and returns a map and count without error, and every
matched gold token starts within the predicted stream's range — gold
tokens lying beyond it are never matched (recall loss, not a failure).
When the gold stream is shorter, a predicted token start beyond it raises
an `IndexError` instead (see the counterexample). -/
theorem C3_gold_covers_predicted (p g : List WordInfo)
    (hpw : ∀ wi ∈ p, wi.word.length ≠ 0)
    (hgw : ∀ wi ∈ g, wi.word.length ≠ 0)
    (hlen : streamLen (p.map (·.word)) ≤ streamLen (g.map (·.word))) :
    ∃ m c, map_predicted_with_gold_words p g = some (m, c) ∧
      ∀ (i v : Nat), m[i]? = some (some v) → 1 ≤ i →
        startOffset (g.map (·.word)) (v - 1) < streamLen (p.map (·.word)) := by
  have hpne : ∀ w ∈ p.map (·.word), w.length ≠ 0 := by
    intro w hw
    obtain ⟨wi, hwi, heq⟩ := List.mem_map.mp hw
    rw [← heq]
    exact hpw wi hwi
  have hgne : ∀ w ∈ g.map (·.word), w.length ≠ 0 := by
    intro w hw
    obtain ⟨wi, hwi, heq⟩ := List.mem_map.mp hw
    rw [← heq]
    exact hgw wi hwi
  obtain ⟨pmap, hpm⟩ := generate_success _ hpne
  obtain ⟨gmap, hgm⟩ := generate_success _ hgne
  have hpl : pmap.length = streamLen (p.map (·.word)) := generate_length _ pmap hpm
  have hgl : gmap.length = streamLen (g.map (·.word)) := generate_length _ gmap hgm
  have hpwf := generate_wf _ pmap hpm
  have hgwf := generate_wf _ gmap hgm
  have htslen : ((List.replicate (p.length + 1) (none : Option Nat)).set 0 (some 0)).length
      = p.length + 1 := by
    rw [List.length_set, List.length_replicate]
  have hwfm : ∀ e ∈ pmap, e = ⟨none, none⟩ ∨ ∃ (en j : Nat), e = ⟨some en, some j⟩ ∧
      j + 1 < ((List.replicate (p.length + 1) (none : Option Nat)).set 0 (some 0)).length := by
    intro e he
    obtain ⟨s, hlt2, hgets⟩ := List.getElem_of_mem he
    have hs : pmap[s]? = some e := by
      rw [List.getElem?_eq_getElem hlt2, hgets]
    rcases hpwf s e hs with hb | ⟨en, j, he2, hj⟩
    · exact Or.inl hb
    · refine Or.inr ⟨en, j, he2, ?_⟩
      rw [htslen]
      simp only [List.length_map] at hj
      omega
  have hgwf2 : ∀ (s : Nat) (e : MapEntry), gmap[s]? = some e →
      e.ending.isSome → e.word_idx.isSome := by
    intro s e hs hend
    rcases hgwf s e hs with hb | ⟨en, j, he2, _⟩
    · rw [hb] at hend
      simp at hend
    · rw [he2]
      rfl
  have hgllen : 0 + pmap.length ≤ gmap.length := by omega
  obtain ⟨⟨m, c⟩, hrun⟩ := alignAux_success gmap pmap 0 _ 0 hwfm hgllen hgwf2
  have hmap : map_predicted_with_gold_words p g = some (m, c) := by
    simp only [map_predicted_with_gold_words, hpm, hgm]
    exact hrun
  refine ⟨m, c, hmap, ?_⟩
  intro i v hi h1
  have hInvInj := alignAux_inv gmap (generate_inj _ gmap hgm) pmap 0 _ 0 m c
    (init_alignInv gmap p.length) (init_alignInj p.length) hrun
  obtain ⟨hv1, s, hslt, e, hge, hwidx⟩ := hInvInj.1.2 i v hi h1
  have hso := generate_word_idx_offset _ gmap hgne hgm s (v - 1) e hge hwidx
  rw [← hso]
  omega

/-- C3 witness: predicted `["ab"]` against gold `["ab","c"]` (gold stream
strictly longer): the call succeeds and the only matched gold token starts
at offset 0, inside the predicted stream's range. -/
theorem C3_witness :
    ((∀ wi ∈ ([⟨"ab", "N", 0, "r"⟩] : List WordInfo), wi.word.length ≠ 0) ∧
      (∀ wi ∈ ([⟨"ab", "N", 0, "r"⟩, ⟨"c", "N", 1, "r"⟩] : List WordInfo), wi.word.length ≠ 0) ∧
      streamLen (([⟨"ab", "N", 0, "r"⟩] : List WordInfo).map (·.word)) ≤
        streamLen (([⟨"ab", "N", 0, "r"⟩, ⟨"c", "N", 1, "r"⟩] : List WordInfo).map (·.word))) ∧
    (∃ m c, map_predicted_with_gold_words [⟨"ab", "N", 0, "r"⟩]
        [⟨"ab", "N", 0, "r"⟩, ⟨"c", "N", 1, "r"⟩] = some (m, c) ∧
      ∀ (i v : Nat), m[i]? = some (some v) → 1 ≤ i →
        startOffset (([⟨"ab", "N", 0, "r"⟩, ⟨"c", "N", 1, "r"⟩] : List WordInfo).map (·.word))
            (v - 1) <
          streamLen (([⟨"ab", "N", 0, "r"⟩] : List WordInfo).map (·.word))) :=
  ⟨⟨by decide, by decide, by decide⟩,
    C3_gold_covers_predicted [⟨"ab", "N", 0, "r"⟩] [⟨"ab", "N", 0, "r"⟩, ⟨"c", "N", 1, "r"⟩]
      (by decide) (by decide) (by decide)⟩

/-! ### Span-identical sequences: the span map depends only on token lengths -/

theorem buildMapAux_lengths_only (ws1 : List String) :
    ∀ ws2 j off m, ws1.map String.length = ws2.map String.length →
      buildMapAux ws1 j off m = buildMapAux ws2 j off m := by
  induction ws1 with
  | nil =>
    intro ws2 j off m h
    cases ws2 with
    | nil => rfl
    | cons w2 t2 => cases h
  | cons w1 t1 ih =>
    intro ws2 j off m h
    cases ws2 with
    | nil => cases h
    | cons w2 t2 =>
      simp only [List.map_cons, List.cons.injEq] at h
      simp only [buildMapAux, h.1]
      split
      · exact ih t2 (j + 1) (off + w2.length) _ h.2
      · rfl

theorem generate_lengths_only (ws1 ws2 : List String)
    (h : ws1.map String.length = ws2.map String.length) :
    generate_start_end_map ws1 = generate_start_end_map ws2 := by
  unfold generate_start_end_map
  rw [h]
  exact buildMapAux_lengths_only ws1 ws2 0 0 _ h

theorem segPattern_drop (w : String) (ws : List String) (j off : Nat) (hw : w.length ≠ 0) :
    (segPattern (w :: ws) j off).drop w.length = segPattern ws (j + 1) (off + w.length) := by
  simp only [segPattern]
  obtain ⟨k, hk⟩ : ∃ k, w.length = k + 1 := ⟨w.length - 1, by omega⟩
  rw [hk]
  simp only [List.drop_succ_cons]
  exact List.drop_left' (List.length_replicate k _)

theorem alignAux_skip_blanks (gmap : List MapEntry) (k : Nat) :
    ∀ rest s0 tsm cc,
      alignAux gmap (List.replicate k ⟨none, none⟩ ++ rest) s0 tsm cc =
        alignAux gmap rest (s0 + k) tsm cc := by
  induction k with
  | zero =>
    intro rest s0 tsm cc
    rfl
  | succ k2 ih =>
    intro rest s0 tsm cc
    rw [List.replicate_succ, List.cons_append]
    simp only [alignAux]
    rw [ih rest (s0 + 1) tsm cc]
    congr 1
    omega

theorem idMapUpTo_getElem (j n i : Nat) (hj : j ≤ n) :
    (idMapUpTo j n)[i]? =
      if i ≤ j then some (some i) else if i ≤ n then some none else none := by
  rw [idMapUpTo, List.getElem?_append]
  by_cases hij : i ≤ j
  · rw [if_pos (by simp; omega), if_pos hij]
    rw [List.getElem?_map, List.getElem?_range (by omega)]
    rfl
  · rw [if_neg (by simp; omega), if_neg hij]
    rw [List.getElem?_replicate, List.length_map, List.length_range]
    by_cases hin : i ≤ n
    · rw [if_pos (by omega), if_pos hin]
    · rw [if_neg (by omega), if_neg hin]

theorem idMapUpTo_length (j n : Nat) (hj : j ≤ n) : (idMapUpTo j n).length = n + 1 := by
  simp [idMapUpTo]
  omega

theorem idMapUpTo_zero (n : Nat) :
    (List.replicate (n + 1) (none : Option Nat)).set 0 (some 0) = idMapUpTo 0 n := by
  rw [init_two_set_map, idMapUpTo]
  simp [List.range_succ_eq_map]

theorem idMapUpTo_set (j n : Nat) (hj : j < n) :
    (idMapUpTo j n).set (j + 1) (some (j + 1)) = idMapUpTo (j + 1) n := by
  apply List.ext_getElem?
  intro i
  rw [List.getElem?_set]
  by_cases hji : j + 1 = i
  · rw [if_pos hji, if_pos (by rw [idMapUpTo_length j n (by omega)]; omega)]
    rw [idMapUpTo_getElem (j + 1) n i (by omega), if_pos (by omega), hji]
  · rw [if_neg hji]
    rw [idMapUpTo_getElem j n i (by omega), idMapUpTo_getElem (j + 1) n i (by omega)]
    by_cases h1 : i ≤ j
    · rw [if_pos h1, if_pos (by omega)]
    · rw [if_neg h1]
      by_cases h2 : i ≤ n
      · rw [if_pos h2, if_neg (by omega)]
      · rw [if_neg h2, if_neg (by omega)]

theorem idMapUpTo_full (n : Nat) : idMapUpTo n n = (List.range (n + 1)).map some := by
  rw [idMapUpTo]
  simp

theorem buildMapAux_seg (ws : List String) :
    ∀ j off m, (∀ w ∈ ws, w.length ≠ 0) → off + streamLen ws = m.length →
      (∀ t, off ≤ t → t < m.length → m[t]? = some ⟨none, none⟩) →
      buildMapAux ws j off m = some (m.take off ++ segPattern ws j off) := by
  induction ws with
  | nil =>
    intro j off m hne hlen hblank
    simp only [streamLen, List.map_nil, List.sum_nil, Nat.add_zero] at hlen
    simp only [buildMapAux, segPattern, List.append_nil]
    rw [hlen, List.take_length]
  | cons w ws ih =>
    intro j off m hne hlen hblank
    rw [streamLen_cons] at hlen
    have hw1 : w.length ≠ 0 := hne w (by simp)
    have hofflt : off < m.length := by omega
    simp only [buildMapAux]
    rw [if_pos hofflt]
    have hlen2 : off + w.length + streamLen ws =
        (m.set off ⟨some (off + w.length), some j⟩).length := by
      rw [List.length_set]
      omega
    have hblank2 : ∀ t, off + w.length ≤ t →
        t < (m.set off ⟨some (off + w.length), some j⟩).length →
        (m.set off ⟨some (off + w.length), some j⟩)[t]? = some ⟨none, none⟩ := by
      intro t ht1 ht2
      rw [List.length_set] at ht2
      rw [List.getElem?_set, if_neg (by omega)]
      exact hblank t (by omega) ht2
    rw [ih (j + 1) (off + w.length) _ (fun x hx => hne x (by simp [hx])) hlen2 hblank2]
    have hmt : (m.take off).length = off := by
      rw [List.length_take]
      omega
    have htake : (m.set off ⟨some (off + w.length), some j⟩).take (off + w.length) =
        m.take off ++ ⟨some (off + w.length), some j⟩ ::
          List.replicate (w.length - 1) (⟨none, none⟩ : MapEntry) := by
      apply List.ext_getElem?
      intro i
      rw [List.getElem?_take, List.getElem?_append, hmt]
      by_cases h1 : i < off
      · rw [if_pos (by omega), List.getElem?_set, if_neg (by omega), if_pos h1,
          List.getElem?_take, if_pos h1]
      · by_cases h2 : i = off
        · subst h2
          rw [if_pos (by omega), List.getElem?_set, if_pos rfl, if_pos hofflt,
            if_neg (by omega), Nat.sub_self, List.getElem?_cons_zero]
        · by_cases h3 : i < off + w.length
          · rw [if_pos h3, List.getElem?_set, if_neg (by omega),
              hblank i (by omega) (by omega), if_neg (by omega)]
            have hsub : i - off = (i - off - 1) + 1 := by omega
            rw [hsub, List.getElem?_cons_succ, List.getElem?_replicate,
              if_pos (by omega)]
          · rw [if_neg h3, if_neg (by omega),
              List.getElem?_eq_none (by simp only [List.length_cons, List.length_replicate]; omega)]
    rw [htake, segPattern]
    simp [List.append_assoc]

theorem generate_seg (ws : List String) (hne : ∀ w ∈ ws, w.length ≠ 0) :
    generate_start_end_map ws = some (segPattern ws 0 0) := by
  unfold generate_start_end_map
  have h := buildMapAux_seg ws 0 0
    (List.replicate ((ws.map String.length).sum) (⟨none, none⟩ : MapEntry)) hne
    (by simp [streamLen])
    (by
      intro t ht1 ht2
      rw [List.length_replicate] at ht2
      rw [List.getElem?_replicate, if_pos ht2])
  rw [h, List.take_zero, List.nil_append]

theorem alignAux_self (M : List MapEntry) (n : Nat) :
    ∀ ws j off cc, (∀ w ∈ ws, w.length ≠ 0) → j + ws.length = n →
      M.drop off = segPattern ws j off →
      alignAux M (segPattern ws j off) off (idMapUpTo j n) cc =
        some (idMapUpTo n n, cc + ws.length) := by
  intro ws
  induction ws with
  | nil =>
    intro j off cc hne hjn hdrop
    simp only [segPattern, alignAux]
    have hj : j = n := by simpa using hjn
    rw [hj]
    simp
  | cons w ws ih =>
    intro j off cc hne hjn hdrop
    have hw1 : w.length ≠ 0 := hne w (by simp)
    have hjlt : j < n := by
      simp only [List.length_cons] at hjn
      omega
    have hMoff : M[off]? = some ⟨some (off + w.length), some j⟩ := by
      have h1 : (segPattern (w :: ws) j off)[0]? =
          some ⟨some (off + w.length), some j⟩ := by
        simp [segPattern]
      rw [← hdrop, List.getElem?_drop] at h1
      simpa using h1
    have hofflt : off < M.length := by
      obtain ⟨hlt, _⟩ := List.getElem?_eq_some.mp hMoff
      exact hlt
    simp only [segPattern, alignAux]
    split
    next hpend =>
      exfalso
      first
      | (rw [hMoff] at hpend; cases hpend)
      | omega
    next en2 hpend =>
      rw [hMoff] at hpend
      injection hpend with hen2
      subst hen2
      rw [if_pos rfl]
      split
      next hgw => simp at hgw
      next gwi hgw =>
        have hgwi : j = gwi := by
          have hred : some j = some gwi := hgw
          injection hred
        rw [← hgwi]
        split
        next hlt =>
          rw [idMapUpTo_set j n hjlt, alignAux_skip_blanks]
          have hoffarith : off + 1 + (w.length - 1) = off + w.length := by omega
          rw [hoffarith]
          have hdrop2 : M.drop (off + w.length) =
              segPattern ws (j + 1) (off + w.length) := by
            have hdd : M.drop (off + w.length) = (M.drop off).drop w.length := by
              rw [List.drop_drop]
              try (congr 1; omega)
            rw [hdd, hdrop, segPattern_drop w ws j off hw1]
          rw [ih (j + 1) (off + w.length) (cc + 1)
            (fun x hx => hne x (by simp [hx]))
            (by simp only [List.length_cons] at hjn; omega) hdrop2]
          simp only [Option.some.injEq, Prod.mk.injEq, List.length_cons, true_and]
          omega
        next hlt =>
          exfalso
          rw [idMapUpTo_length j n (by omega)] at hlt
          omega

theorem idFull_getElem (n i : Nat) (hi : i ≤ n) :
    ((List.range (n + 1)).map some)[i]? = some (some i) := by
  rw [List.getElem?_map, List.getElem?_range (by omega)]
  rfl

theorem map_predicted_span_identical (p g : List WordInfo)
    (hpw : ∀ wi ∈ p, wi.word.length ≠ 0)
    (hmap : p.map (fun wi => wi.word.length) = g.map (fun wi => wi.word.length)) :
    map_predicted_with_gold_words p g =
      some ((List.range (p.length + 1)).map some, p.length) := by
  have hlenmap : (p.map (·.word)).map String.length = (g.map (·.word)).map String.length := by
    rw [List.map_map, List.map_map]
    exact hmap
  have hpne : ∀ w ∈ p.map (·.word), w.length ≠ 0 := by
    intro w hw
    obtain ⟨wi, hwi, heq⟩ := List.mem_map.mp hw
    rw [← heq]
    exact hpw wi hwi
  have hgen_p : generate_start_end_map (p.map (·.word)) =
      some (segPattern (p.map (·.word)) 0 0) := generate_seg _ hpne
  have hgen_g : generate_start_end_map (g.map (·.word)) =
      some (segPattern (p.map (·.word)) 0 0) := by
    rw [← generate_lengths_only (p.map (·.word)) (g.map (·.word)) hlenmap]
    exact hgen_p
  simp only [map_predicted_with_gold_words, hgen_p, hgen_g]
  rw [idMapUpTo_zero p.length]
  have hself := alignAux_self (segPattern (p.map (·.word)) 0 0) p.length (p.map (·.word))
    0 0 0 hpne (by simp) (by rw [List.drop_zero])
  rw [hself, idMapUpTo_full]
  simp

theorem posMatchAux_id (p g : List WordInfo) (n : Nat) (hn : n = p.length)
    (hng : n = g.length) :
    ∀ pl idx cc, pl = p.drop idx →
      ∃ r, posMatchAux g ((List.range (n + 1)).map some) pl idx cc = some r := by
  intro pl
  induction pl with
  | nil =>
    intro idx cc hpl
    exact ⟨cc, rfl⟩
  | cons wi rest ih =>
    intro idx cc hpl
    have hidx : idx < p.length := by
      by_contra hcon
      rw [List.drop_eq_nil_of_le (by omega)] at hpl
      cases hpl
    have hrest : rest = p.drop (idx + 1) := by
      rw [List.drop_eq_getElem_cons hidx] at hpl
      injection hpl
    simp only [posMatchAux]
    split
    next h0 =>
      rw [pyGet_natCast_add_one, idFull_getElem n (idx + 1) (by omega)] at h0
      cases h0
    next h0 =>
      rw [pyGet_natCast_add_one, idFull_getElem n (idx + 1) (by omega)] at h0
      simp at h0
    next wgi h0 =>
      rw [pyGet_natCast_add_one, idFull_getElem n (idx + 1) (by omega)] at h0
      have hwgi : idx + 1 = wgi := by
        simp only [Option.some.injEq] at h0
        exact h0
      split
      next h1 =>
        rw [pyGet_natCast_sub_one g wgi (by omega), ← hwgi, Nat.add_sub_cancel,
          List.getElem?_eq_getElem (by omega)] at h1
        cases h1
      next gw h1 =>
        split
        · exact ih (idx + 1) (cc + 1) hrest
        · exact ih (idx + 1) cc hrest

theorem uasLasAux_id (p g : List WordInfo) (n : Nat) (hn : n = p.length)
    (hng : n = g.length) (hh : ∀ wi ∈ p, wi.head_idx ≤ n) :
    ∀ pl idx u l, pl = p.drop idx →
      uasLasAux g ((List.range (n + 1)).map some) pl idx u l =
        some (u + ((p.drop idx).zip (g.drop idx)).countP
                (fun c => decide (c.1.head_idx = c.2.head_idx)),
              l + ((p.drop idx).zip (g.drop idx)).countP
                (fun c => decide (c.1.head_idx = c.2.head_idx) &&
                  decide (c.1.dep_label = c.2.dep_label))) := by
  intro pl
  induction pl with
  | nil =>
    intro idx u l hpl
    rw [← hpl]
    simp [uasLasAux]
  | cons wi rest ih =>
    intro idx u l hpl
    have hidx : idx < p.length := by
      by_contra hcon
      rw [List.drop_eq_nil_of_le (by omega)] at hpl
      cases hpl
    have hsplit := List.drop_eq_getElem_cons (l := p) hidx
    rw [hsplit] at hpl
    have hwi : wi = p[idx] := by injection hpl
    have hrest : rest = p.drop (idx + 1) := by injection hpl
    have hgsplit := List.drop_eq_getElem_cons (l := g) (show idx < g.length by omega)
    rw [hsplit, hgsplit, List.zip_cons_cons, List.countP_cons, List.countP_cons]
    simp only [uasLasAux]
    split
    next h0 =>
      rw [pyGet_natCast_add_one, idFull_getElem n (idx + 1) (by omega)] at h0
      cases h0
    next h0 =>
      rw [pyGet_natCast_add_one, idFull_getElem n (idx + 1) (by omega)] at h0
      simp at h0
    next wgi h0 =>
      rw [pyGet_natCast_add_one, idFull_getElem n (idx + 1) (by omega)] at h0
      have hwgi : idx + 1 = wgi := by
        simp only [Option.some.injEq] at h0
        exact h0
      split
      next h1 =>
        rw [pyGet_natCast_sub_one g wgi (by omega), ← hwgi, Nat.add_sub_cancel,
          List.getElem?_eq_getElem (by omega)] at h1
        cases h1
      next gw h1 =>
        rw [pyGet_natCast_sub_one g wgi (by omega), ← hwgi, Nat.add_sub_cancel,
          List.getElem?_eq_getElem (show idx < g.length by omega)] at h1
        have hgw : gw = g[idx] := by
          injection h1 with h1e
          exact h1e.symm
        split
        next h2 =>
          rw [pyGet_natCast, idFull_getElem n wi.head_idx
            (hh wi (by rw [hwi]; exact List.getElem_mem hidx))] at h2
          cases h2
        next mh h2 =>
          rw [pyGet_natCast, idFull_getElem n wi.head_idx
            (hh wi (by rw [hwi]; exact List.getElem_mem hidx))] at h2
          have hmh : mh = some wi.head_idx := by
            simp only [Option.some.injEq] at h2
            exact h2.symm
          subst hmh
          rw [ih (idx + 1) u l hrest, ih (idx + 1) (u + 1) l hrest,
            ih (idx + 1) (u + 1) (l + 1) hrest, ← hwi, ← hgw]
          by_cases hmh2 : wi.head_idx = gw.head_idx
          · rw [if_pos (by rw [hmh2])]
            by_cases hlab : wi.dep_label = gw.dep_label
            · rw [if_pos hlab]
              simp only [Option.some.injEq, Prod.mk.injEq]
              constructor <;> (simp [hmh2, hlab]; try omega)
            · rw [if_neg hlab]
              simp only [Option.some.injEq, Prod.mk.injEq]
              constructor <;> (simp [hmh2, hlab]; try omega)
          · rw [if_neg (by simp [hmh2])]
            simp only [Option.some.injEq, Prod.mk.injEq]
            constructor <;> (simp [hmh2]; try omega)

/-- C8: on non-empty sequences whose token texts induce identical
character spans (pointwise equal text lengths), every predicted token
aligns to the gold token at the same position, so the segmentation scores
are perfect (`precision = recall = f1 = 100`, `correct_count` is the full
length) and `uas_score`/`las_score` reduce to plain positional
attachment/label accuracy times 100. -/
theorem C8_span_identical (p g : List WordInfo)
    (hp : p ≠ [])
    (hpw : ∀ wi ∈ p, wi.word.length ≠ 0)
    (hmap : p.map (fun wi => wi.word.length) = g.map (fun wi => wi.word.length))
    (hh : ∀ wi ∈ p, wi.head_idx ≤ p.length) :
    ∃ ev, get_parser_evaluation p g = some ev ∧
      ev.correct_count = p.length ∧
      ev.precision = 100 ∧ ev.recall_ = 100 ∧ ev.f1_score = 100 ∧
      ev.uas_score = ((rawUasCount p g : ℚ) / (p.length : ℚ)) * 100 ∧
      ev.las_score = ((rawLasCount p g : ℚ) / (p.length : ℚ)) * 100 := by
  have hglen : g.length = p.length := by
    have hcg := congrArg List.length hmap
    simpa using hcg.symm
  have hnp : p.length ≠ 0 := fun h => hp (List.length_eq_zero.mp h)
  have hn0 : (p.length : ℚ) ≠ 0 := by exact_mod_cast hnp
  have hmp := map_predicted_span_identical p g hpw hmap
  obtain ⟨pm, hpos⟩ := posMatchAux_id p g p.length rfl hglen.symm p 0 0
    (by rw [List.drop_zero])
  have hposm : get_pos_match p g ((List.range (p.length + 1)).map some) = some pm := by
    rw [get_pos_match]
    exact hpos
  have huas := uasLasAux_id p g p.length rfl hglen.symm hh p 0 0 0 (by rw [List.drop_zero])
  have huas2 : get_uas_las_match p g ((List.range (p.length + 1)).map some) =
      some (rawUasCount p g, rawLasCount p g) := by
    rw [get_uas_las_match, huas]
    simp [rawUasCount, rawLasCount]
  refine ⟨mkEvaluation p.length g.length p.length pm (rawUasCount p g) (rawLasCount p g),
    ?_, by simp [mkEvaluation], ?_, ?_, ?_, ?_, ?_⟩
  · simp only [get_parser_evaluation, hmp, hposm, huas2]
    rw [if_neg (by push_neg; exact ⟨hnp, by omega⟩)]
  · simp only [mkEvaluation]
    rw [div_self hn0, one_mul]
  · simp only [mkEvaluation]
    rw [hglen, div_self hn0, one_mul]
  · simp only [mkEvaluation]
    rw [hglen, div_self hn0, one_mul]
    norm_num [get_f1_score]
  · simp only [mkEvaluation]
    rw [if_pos (by omega)]
  · simp only [mkEvaluation]
    rw [if_pos (by omega)]

/-- C8 witness: a concrete span-identical pair with one correct and one
incorrect attachment (UAS 50) and one correct label (LAS 50). -/
theorem C8_witness :
    (([⟨"ab", "N", 0, "root"⟩, ⟨"c", "V", 1, "x"⟩] : List WordInfo) ≠ [] ∧
      (∀ wi ∈ ([⟨"ab", "N", 0, "root"⟩, ⟨"c", "V", 1, "x"⟩] : List WordInfo),
        wi.word.length ≠ 0) ∧
      ([⟨"ab", "N", 0, "root"⟩, ⟨"c", "V", 1, "x"⟩] : List WordInfo).map
          (fun wi => wi.word.length) =
        ([⟨"xy", "N", 0, "root"⟩, ⟨"z", "V", 2, "y"⟩] : List WordInfo).map
          (fun wi => wi.word.length) ∧
      (∀ wi ∈ ([⟨"ab", "N", 0, "root"⟩, ⟨"c", "V", 1, "x"⟩] : List WordInfo),
        wi.head_idx ≤ ([⟨"ab", "N", 0, "root"⟩, ⟨"c", "V", 1, "x"⟩] : List WordInfo).length)) ∧
    (∃ ev, get_parser_evaluation [⟨"ab", "N", 0, "root"⟩, ⟨"c", "V", 1, "x"⟩]
        [⟨"xy", "N", 0, "root"⟩, ⟨"z", "V", 2, "y"⟩] = some ev ∧
      ev.correct_count = ([⟨"ab", "N", 0, "root"⟩, ⟨"c", "V", 1, "x"⟩] : List WordInfo).length ∧
      ev.precision = 100 ∧ ev.recall_ = 100 ∧ ev.f1_score = 100 ∧
      ev.uas_score = ((rawUasCount [⟨"ab", "N", 0, "root"⟩, ⟨"c", "V", 1, "x"⟩]
          [⟨"xy", "N", 0, "root"⟩, ⟨"z", "V", 2, "y"⟩] : ℚ) /
        (([⟨"ab", "N", 0, "root"⟩, ⟨"c", "V", 1, "x"⟩] : List WordInfo).length : ℚ)) * 100 ∧
      ev.las_score = ((rawLasCount [⟨"ab", "N", 0, "root"⟩, ⟨"c", "V", 1, "x"⟩]
          [⟨"xy", "N", 0, "root"⟩, ⟨"z", "V", 2, "y"⟩] : ℚ) /
        (([⟨"ab", "N", 0, "root"⟩, ⟨"c", "V", 1, "x"⟩] : List WordInfo).length : ℚ)) * 100) :=
  ⟨⟨by decide, by decide, by decide, by decide⟩,
    C8_span_identical [⟨"ab", "N", 0, "root"⟩, ⟨"c", "V", 1, "x"⟩]
      [⟨"xy", "N", 0, "root"⟩, ⟨"z", "V", 2, "y"⟩]
      (by decide) (by decide) (by decide) (by decide)⟩
